import Mathlib

/-!
# OIDC credentials of `identity/credentials_oidc.go`

A shallow embedding of the Go file `identity/credentials_oidc.go` and of the
parts of the Go standard library it calls (`fmt.Sprintf` for the `%s` verb,
`unicode/utf8`, and the `encoding/json` encoder and decoder for a struct of
strings), followed by theorems about the builder `NewCredentialsOIDC`, the
canonical identifier `OIDCUniqueID`, the lookup `GetProvider` and the
resolver `Organization`.

Go strings are byte sequences, not sequences of Unicode code points, so a Go
`string` is a list of bytes here.
-/

namespace Kratos

/-! ## Bytes and Go strings -/

/-- A byte, Go's `byte` (`uint8`). -/
abbrev Byte := Fin 256

/-- A Go `string` (and a Go `[]byte`): a finite sequence of bytes, with no
constraint that it be valid UTF-8. -/
abbrev GoString := List Byte

/-! A Unicode code point, Go's `rune`, is a natural number here: the library
functions modelled only produce non-negative runes. -/

deriving instance DecidableEq for Except

/-- The byte of a natural number, Go's conversion `byte(n)`. -/
def byteOf (n : Nat) : Byte := ⟨n % 256, Nat.mod_lt n (by decide)⟩

/-! ## `unicode/utf8` -/

/-- The constant `utf8.RuneError`, U+FFFD. -/
def RuneError : Nat := 0xFFFD

/-- The constant `utf8.RuneSelf`: bytes below it are single-byte runes. -/
def RuneSelf : Nat := 0x80

/-- The constant `utf8.MaxRune`. -/
def MaxRune : Nat := 0x10FFFF

/-- The constant `utf8.UTFMax`. -/
def UTFMax : Nat := 4

/-- The function `utf8.DecodeRune` (and `utf8.DecodeRuneInString`): the first
rune of `p` and its width in bytes; `(RuneError, 0)` on empty input and
`(RuneError, 1)` on an invalid encoding. The table `first` and the
`acceptRanges` of the library are written out as the byte ranges they
hold. -/
def DecodeRune (p : List Byte) : Nat × Nat :=
  match p with
  | [] => (RuneError, 0)
  | p0 :: t =>
    if p0.val < 0x80 then (p0.val, 1)
    else if p0.val < 0xC2 then (RuneError, 1)
    else if 0xF4 < p0.val then (RuneError, 1)
    else
      let sz : Nat := if p0.val < 0xE0 then 2 else if p0.val < 0xF0 then 3 else 4
      let lo : Nat :=
        if p0.val = 0xE0 then 0xA0 else if p0.val = 0xF0 then 0x90 else 0x80
      let hi : Nat :=
        if p0.val = 0xED then 0x9F else if p0.val = 0xF4 then 0x8F else 0xBF
      if t.length + 1 < sz then (RuneError, 1)
      else
        match t with
        | [] => (RuneError, 1)
        | b1 :: t1 =>
          if b1.val < lo ∨ hi < b1.val then (RuneError, 1)
          else if sz ≤ 2 then (64 * (p0.val % 32) + b1.val % 64, 2)
          else
            match t1 with
            | [] => (RuneError, 1)
            | b2 :: t2 =>
              if b2.val < 0x80 ∨ 0xBF < b2.val then (RuneError, 1)
              else if sz ≤ 3 then
                (4096 * (p0.val % 16) + 64 * (b1.val % 64) + b2.val % 64, 3)
              else
                match t2 with
                | [] => (RuneError, 1)
                | b3 :: _ =>
                  if b3.val < 0x80 ∨ 0xBF < b3.val then (RuneError, 1)
                  else
                    (262144 * (p0.val % 8) + 4096 * (b1.val % 64)
                      + 64 * (b2.val % 64) + b3.val % 64, 4)

/-- The function `utf8.EncodeRune` (as `utf8.AppendRune` on an empty
buffer): the UTF-8 encoding of `r`; surrogates and runes beyond `MaxRune`
are encoded as `RuneError`. -/
def EncodeRune (r : Nat) : List Byte :=
  if r ≤ 0x7F then [byteOf r]
  else if r ≤ 0x7FF then [byteOf (0xC0 + r / 64), byteOf (0x80 + r % 64)]
  else if MaxRune < r ∨ (0xD800 ≤ r ∧ r ≤ 0xDFFF) then [0xEF, 0xBF, 0xBD]
  else if r ≤ 0xFFFF then
    [byteOf (0xE0 + r / 4096), byteOf (0x80 + r / 64 % 64), byteOf (0x80 + r % 64)]
  else
    [byteOf (0xF0 + r / 262144), byteOf (0x80 + r / 4096 % 64),
     byteOf (0x80 + r / 64 % 64), byteOf (0x80 + r % 64)]

/-- The loop of `utf8.ValidString`: `s` is valid UTF-8 when decoding it rune
by rune never meets an invalid encoding. The first argument bounds the
number of runes read; `s.length` is enough. -/
def validLoop : Nat → List Byte → Bool
  | 0, s => s.isEmpty
  | n + 1, s =>
    match s with
    | [] => true
    | b :: t =>
      if b.val < RuneSelf then validLoop n t
      else
        let (c, size) := DecodeRune (b :: t)
        if c = RuneError ∧ size = 1 then false
        else validLoop n ((b :: t).drop size)

/-- A Go string coerced to valid UTF-8 the way `encoding/json` does it: every
byte that does not start a valid encoding is replaced by the encoding of
U+FFFD, valid encodings are kept. The first argument bounds the number of
steps; the length of the string is enough. -/
def coerceLoop : Nat → List Byte → List Byte
  | 0, _ => []
  | n + 1, s =>
    match s with
    | [] => []
    | b :: t =>
      if b.val < RuneSelf then b :: coerceLoop n t
      else
        let (c, size) := DecodeRune (b :: t)
        if c = RuneError ∧ size = 1 then [0xEF, 0xBF, 0xBD] ++ coerceLoop n t
        else (b :: t).take size ++ coerceLoop n ((b :: t).drop size)

/-- The string that decoding the JSON encoding of `s` gives back. -/
def coerceUTF8 (s : GoString) : GoString := coerceLoop s.length s

/-- The function `utf8.ValidString`. -/
def ValidString (s : GoString) : Bool := validLoop s.length s

/-- The bytes of a literal of the source text: the UTF-8 encoding of its
characters. -/
def lit (s : String) : GoString := s.data.flatMap (fun c => EncodeRune c.toNat)

/-! ## `fmt.Sprintf`, for the verb `%s` -/

/-- The function `fmt.Sprintf` for formats that use only the verbs `%s` and
`%%` with string operands: bytes of the format are copied, `%s` is replaced
by the next operand printed as it is, and a `%s` without an operand prints
`%!s(MISSING)`. -/
def sprintfLoop : List Byte → List GoString → GoString
  | [], _ => []
  | 0x25 :: 0x73 :: rest, a :: args => a ++ sprintfLoop rest args
  | 0x25 :: 0x73 :: rest, [] => lit "%!s(MISSING)" ++ sprintfLoop rest []
  | 0x25 :: 0x25 :: rest, args => 0x25 :: sprintfLoop rest args
  | b :: rest, args => b :: sprintfLoop rest args

/-- The function `fmt.Sprintf` on a format and its string operands. -/
def Sprintf (format : GoString) (args : List GoString) : GoString :=
  sprintfLoop format args

/-! ## The data model of `credentials_oidc.go` -/

/-- The struct `CredentialsOIDCProvider`: one OpenID Connect credential of a
particular connection. -/
structure CredentialsOIDCProvider where
  Subject : GoString
  Provider : GoString
  InitialIDToken : GoString
  InitialAccessToken : GoString
  InitialRefreshToken : GoString
  CurrentIDToken : GoString
  CurrentAccessToken : GoString
  CurrentRefreshToken : GoString
  Organization : GoString
  deriving DecidableEq, Repr

/-- The struct `CredentialsOIDC`. The field `Providers` is a Go slice:
`none` is the nil slice and `some l` a non-nil slice with the elements
`l`. -/
structure CredentialsOIDC where
  Providers : Option (List CredentialsOIDCProvider)
  deriving DecidableEq, Repr

/-- The elements of the slice `c.Providers`, what `range c.Providers` and
`len(c.Providers)` see: a nil slice has none. -/
def CredentialsOIDC.links (c : CredentialsOIDC) : List CredentialsOIDCProvider :=
  c.Providers.getD []

/-- Modelled from the spec: the constant `CredentialsTypeOIDC`, declared
outside this file; the type tag of the credential is "oidc". -/
def CredentialsTypeOIDC : GoString := lit "oidc"

/-- Modelled from the spec: the struct `Credentials`, declared outside this
file, as far as `NewCredentialsOIDC` sets it: a type tag, the external-facing
unique identifiers and the opaque configuration payload. -/
structure Credentials where
  «Type» : GoString
  Identifiers : List GoString
  Config : List Byte
  deriving DecidableEq, Repr

/-- The errors `NewCredentialsOIDC` can return: one made by `errors.New`
with a message, or `x.PseudoPanic` with the debug text of the failed
encoding. -/
inductive Error where
  | new (msg : String)
  | pseudoPanic (debug : String)
  deriving DecidableEq, Repr

/-! ## `encoding/json`: the encoder

`json.NewEncoder(&b).Encode(v)` writes the JSON encoding of `v` followed by
a newline, with HTML escaping on (the default of an `Encoder`). -/

/-- The table `hex` of `encoding/json`, "0123456789abcdef", at index `n`. -/
def hexDigit (n : Nat) : Byte :=
  if n < 10 then byteOf (0x30 + n) else byteOf (0x57 + n)

/-- The table `htmlSafeSet` of `encoding/json`, on a byte below `RuneSelf`:
true for the bytes from the space on, except the quote, the backslash and
the HTML characters `&`, `<` and `>`. -/
def htmlSafeSet (b : Byte) : Bool :=
  decide (0x20 ≤ b.val) && b != 0x22 && b != 0x26 && b != 0x3C && b != 0x3E && b != 0x5C

/-- The escape that `appendString` writes for a byte below `RuneSelf` that
is not in `htmlSafeSet`. -/
def escapeByte (b : Byte) : List Byte :=
  if b = 0x5C ∨ b = 0x22 then [0x5C, b]
  else if b = 0x08 then [0x5C, 0x62]
  else if b = 0x0C then [0x5C, 0x66]
  else if b = 0x0A then [0x5C, 0x6E]
  else if b = 0x0D then [0x5C, 0x72]
  else if b = 0x09 then [0x5C, 0x74]
  else [0x5C, 0x75, 0x30, 0x30, hexDigit (b.val / 16), hexDigit (b.val % 16)]

/-- The loop of `appendString` with `escapeHTML` set, on the bytes of the
source still to be written: safe bytes are copied, the others escaped, an
invalid UTF-8 byte becomes the escape of U+FFFD, and U+2028 and U+2029 are
escaped. The first argument bounds the number of steps; the length of the
source is enough. -/
def appendStringLoop : Nat → List Byte → List Byte
  | 0, _ => []
  | n + 1, src =>
    match src with
    | [] => []
    | b :: t =>
      if b.val < RuneSelf then
        if htmlSafeSet b then b :: appendStringLoop n t
        else escapeByte b ++ appendStringLoop n t
      else
        let (c, size) := DecodeRune ((b :: t).take UTFMax)
        if c = RuneError ∧ size = 1 then
          [0x5C, 0x75, 0x66, 0x66, 0x66, 0x64] ++ appendStringLoop n t
        else if c = 0x2028 ∨ c = 0x2029 then
          [0x5C, 0x75, 0x32, 0x30, 0x32, hexDigit (c % 16)]
            ++ appendStringLoop n ((b :: t).drop size)
        else (b :: t).take size ++ appendStringLoop n ((b :: t).drop size)

/-- The function `appendString` of `encoding/json` with `escapeHTML` set: the
JSON string literal of a Go string. -/
def appendString (src : GoString) : List Byte :=
  0x22 :: (appendStringLoop src.length src ++ [0x22])

/-- A field of a struct as the struct encoder sees it: its JSON name, whether
its tag has `omitempty`, and the encoding of its value together with whether
the value is empty. -/
structure EncField where
  name : GoString
  omitEmpty : Bool
  isEmptyValue : Bool
  encoded : List Byte

/-- The loop of `structEncoder.encode`: a field with `omitempty` and an empty
value is skipped; every other field writes `next` (the opening brace for the
first field written, a comma afterwards), its quoted name with a colon, and
its value. The result is the output and whether a field was written. -/
def structFieldLoop : List EncField → Bool → List Byte
  | [], _ => []
  | f :: fs, first =>
    if f.omitEmpty && f.isEmptyValue then structFieldLoop fs first
    else
      (if first then [0x7B] else [0x2C]) ++ appendString f.name ++ [0x3A] ++ f.encoded
        ++ structFieldLoop fs false

/-- Whether `structFieldLoop` writes no field at all. -/
def structAllSkipped (fs : List EncField) : Bool :=
  fs.all (fun f => f.omitEmpty && f.isEmptyValue)

/-- The function `structEncoder.encode`: the fields between braces, `{}` when
every field is skipped. -/
def structEncode (fs : List EncField) : List Byte :=
  if structAllSkipped fs then [0x7B, 0x7D] else structFieldLoop fs true ++ [0x7D]

/-- The loop of `arrayEncoder.encode`: the elements, a comma before each one
but the first. -/
def arrayElemLoop : List (List Byte) → Bool → List Byte
  | [], _ => []
  | e :: es, first => (if first then [] else [0x2C]) ++ e ++ arrayElemLoop es false

/-- The function `sliceEncoder.encode`: `null` for a nil slice, otherwise the
encoded elements between brackets. -/
def sliceEncode (elems : Option (List (List Byte))) : List Byte :=
  match elems with
  | none => [0x6E, 0x75, 0x6C, 0x6C]
  | some es => [0x5B] ++ arrayElemLoop es true ++ [0x5D]

/-- The fields of `CredentialsOIDCProvider` with their JSON tags, in the
order of declaration; only `organization` has `omitempty`. -/
def CredentialsOIDCProvider.encFields (p : CredentialsOIDCProvider) : List EncField :=
  [ ⟨lit "subject", false, p.Subject.isEmpty, appendString p.Subject⟩,
    ⟨lit "provider", false, p.Provider.isEmpty, appendString p.Provider⟩,
    ⟨lit "initial_id_token", false, p.InitialIDToken.isEmpty, appendString p.InitialIDToken⟩,
    ⟨lit "initial_access_token", false, p.InitialAccessToken.isEmpty,
      appendString p.InitialAccessToken⟩,
    ⟨lit "initial_refresh_token", false, p.InitialRefreshToken.isEmpty,
      appendString p.InitialRefreshToken⟩,
    ⟨lit "current_id_token", false, p.CurrentIDToken.isEmpty, appendString p.CurrentIDToken⟩,
    ⟨lit "current_access_token", false, p.CurrentAccessToken.isEmpty,
      appendString p.CurrentAccessToken⟩,
    ⟨lit "current_refresh_token", false, p.CurrentRefreshToken.isEmpty,
      appendString p.CurrentRefreshToken⟩,
    ⟨lit "organization", true, p.Organization.isEmpty, appendString p.Organization⟩ ]

/-- The JSON encoding of one `CredentialsOIDCProvider`. -/
def CredentialsOIDCProvider.marshal (p : CredentialsOIDCProvider) : List Byte :=
  structEncode p.encFields

/-- The JSON encoding of a `CredentialsOIDC`: one field, `providers`, without
`omitempty`. -/
def CredentialsOIDC.marshal (c : CredentialsOIDC) : List Byte :=
  structEncode
    [ ⟨lit "providers", false, c.links.isEmpty,
        sliceEncode (c.Providers.map (fun l => l.map CredentialsOIDCProvider.marshal))⟩ ]

/-- The error of an encoding, `json.Encoder.Encode`'s second result. -/
inductive EncodeError where
  | unsupported (what : String)
  deriving DecidableEq, Repr

/-- The call `json.NewEncoder(&b).Encode(v)` for a `CredentialsOIDC` `v` and
a `bytes.Buffer` `b`: the bytes written to the buffer, the encoding and a
newline. The encoder reports an error for unsupported types and values
(channels, functions, NaN, cycles), for a failing `Marshaler`, and for a
failing writer; a struct of strings and a slice of such structs has none of
these and a `bytes.Buffer` does not fail, so every call is `ok`. -/
def Encode (v : CredentialsOIDC) : Except EncodeError (List Byte) :=
  .ok (v.marshal ++ [0x0A])

/-! ## `encoding/json`: the decoder

`json.Unmarshal(data, &c)` first checks that `data` is one JSON value
between optional white space, then stores the value into `c`. The model
reads the value into a syntax tree and then stores the tree, which gives the
same result; string literals are unquoted while they are read. -/

/-- A JSON value as read from the bytes: strings and keys are unquoted, a
number keeps its text. -/
inductive JValue where
  | null
  | bool (b : Bool)
  | number (raw : List Byte)
  | string (s : GoString)
  | array (elems : List JValue)
  | object (members : List (GoString × JValue))

/-- The function `isSpace` of the scanner, dropped from the front. -/
def skipWS : List Byte → List Byte
  | [] => []
  | b :: t => if b = 0x20 ∨ b = 0x09 ∨ b = 0x0D ∨ b = 0x0A then skipWS t else b :: t

/-- The value of a hexadecimal digit, as in `getu4`. -/
def hexVal (c : Byte) : Option Nat :=
  if 0x30 ≤ c.val ∧ c.val ≤ 0x39 then some (c.val - 0x30)
  else if 0x61 ≤ c.val ∧ c.val ≤ 0x66 then some (c.val - 0x61 + 10)
  else if 0x41 ≤ c.val ∧ c.val ≤ 0x46 then some (c.val - 0x41 + 10)
  else none

/-- The function `getu4` of `encoding/json`: the rune of a `\uXXXX` escape at
the front of `s`, `none` (Go's `-1`) when there is none. -/
def getu4 (s : List Byte) : Option Nat :=
  match s with
  | b0 :: b1 :: c0 :: c1 :: c2 :: c3 :: _ =>
    if b0 = 0x5C ∧ b1 = 0x75 then
      match hexVal c0, hexVal c1, hexVal c2, hexVal c3 with
      | some h0, some h1, some h2, some h3 => some (16 * (16 * (16 * h0 + h1) + h2) + h3)
      | _, _, _, _ => none
    else none
  | _ => none

/-- The function `utf16.IsSurrogate`. -/
def IsSurrogate (r : Nat) : Bool := decide (0xD800 ≤ r ∧ r < 0xE000)

/-- The function `utf16.DecodeRune` on a first rune and an optional second one:
the code point of a valid surrogate pair, U+FFFD otherwise. -/
def utf16DecodeRune (r1 : Nat) (r2 : Option Nat) : Nat :=
  match r2 with
  | some r2 =>
    if 0xD800 ≤ r1 ∧ r1 < 0xDC00 ∧ 0xDC00 ≤ r2 ∧ r2 < 0xE000 then
      1024 * (r1 - 0xD800) + (r2 - 0xDC00) + 0x10000
    else RuneError
  | none => RuneError

/-- Puts bytes in front of the string of a result. -/
def prepend (x : List Byte) (r : Option (GoString × List Byte)) : Option (GoString × List Byte) :=
  match r with
  | some (s, rest) => some (x ++ s, rest)
  | none => none

/-- The scanner's walk through a string literal together with `unquoteBytes`,
on the input after the opening quote: the unquoted string and the input after
the closing quote, `none` on a control character, a bad escape or a missing
closing quote. Escapes are replaced, a surrogate pair of two `\u` escapes is
joined, and other bytes are coerced to well-formed UTF-8. The first argument
bounds the number of steps; the length of the input is enough. -/
def unquoteLoop : Nat → List Byte → Option (GoString × List Byte)
  | 0, _ => none
  | n + 1, inp =>
    match inp with
    | [] => none
    | c :: t =>
      if c = 0x22 then some ([], t)
      else if c = 0x5C then
        match t with
        | [] => none
        | e :: t1 =>
          if e = 0x22 ∨ e = 0x5C ∨ e = 0x2F then prepend [e] (unquoteLoop n t1)
          else if e = 0x62 then prepend [0x08] (unquoteLoop n t1)
          else if e = 0x66 then prepend [0x0C] (unquoteLoop n t1)
          else if e = 0x6E then prepend [0x0A] (unquoteLoop n t1)
          else if e = 0x72 then prepend [0x0D] (unquoteLoop n t1)
          else if e = 0x74 then prepend [0x09] (unquoteLoop n t1)
          else if e = 0x75 then
            match getu4 (c :: t) with
            | none => none
            | some rr =>
              if IsSurrogate rr then
                let dec := utf16DecodeRune rr (getu4 ((c :: t).drop 6))
                if dec ≠ RuneError then
                  prepend (EncodeRune dec) (unquoteLoop n ((c :: t).drop 12))
                else prepend (EncodeRune RuneError) (unquoteLoop n ((c :: t).drop 6))
              else prepend (EncodeRune rr) (unquoteLoop n ((c :: t).drop 6))
          else none
      else if c.val < 0x20 then none
      else if c.val < RuneSelf then prepend [c] (unquoteLoop n t)
      else
        let (rr, size) := DecodeRune (c :: t)
        prepend (EncodeRune rr) (unquoteLoop n ((c :: t).drop size))

/-- A string literal, on the input after its opening quote. -/
def parseString (inp : List Byte) : Option (GoString × List Byte) :=
  unquoteLoop inp.length inp

/-- Whether a byte is a decimal digit. -/
def isDigit (b : Byte) : Bool := decide (0x30 ≤ b.val ∧ b.val ≤ 0x39)

/-- The digits at the front of the input, and the input after them. -/
def spanDigits : List Byte → List Byte × List Byte
  | [] => ([], [])
  | b :: t =>
    if isDigit b then ((spanDigits t).1.cons b, (spanDigits t).2) else ([], b :: t)

/-- The exponent of a number, if the input starts with one. -/
def parseExponent (inp : List Byte) : Option (List Byte × List Byte) :=
  match inp with
  | e :: t =>
    if e = 0x65 ∨ e = 0x45 then
      match t with
      | sgn :: t1 =>
        if sgn = 0x2B ∨ sgn = 0x2D then
          match spanDigits t1 with
          | ([], _) => none
          | (ds, rest) => some (e :: sgn :: ds, rest)
        else
          match spanDigits t with
          | ([], _) => none
          | (ds, rest) => some (e :: ds, rest)
      | [] => none
    else some ([], inp)
  | [] => some ([], inp)

/-- The fraction of a number, if the input starts with one. -/
def parseFraction (inp : List Byte) : Option (List Byte × List Byte) :=
  match inp with
  | dot :: t =>
    if dot = 0x2E then
      match spanDigits t with
      | ([], _) => none
      | (ds, rest) => some (dot :: ds, rest)
    else some ([], inp)
  | [] => some ([], inp)

/-- The integer part of a number after the optional sign: a single zero or a
digit from 1 to 9 followed by digits. -/
def parseIntPart (inp : List Byte) : Option (List Byte × List Byte) :=
  match inp with
  | d :: t =>
    if d = 0x30 then some ([d], t)
    else if isDigit d then some (d :: (spanDigits t).1, (spanDigits t).2)
    else none
  | [] => none

/-- A number literal of the JSON grammar, its text and the input after it. -/
def parseNumber (inp : List Byte) : Option (List Byte × List Byte) :=
  let (sign, r0) : List Byte × List Byte :=
    match inp with
    | m :: t => if m = 0x2D then ([m], t) else ([], inp)
    | [] => ([], inp)
  match parseIntPart r0 with
  | none => none
  | some (ip, r1) =>
    match parseFraction r1 with
    | none => none
    | some (fp, r2) =>
      match parseExponent r2 with
      | none => none
      | some (ep, r3) => some (sign ++ ip ++ fp ++ ep, r3)

/-- Drops `pre` from the front of the input when it is there. -/
def dropPrefix (pre inp : List Byte) : Option (List Byte) :=
  if pre.isPrefixOf inp then some (inp.drop pre.length) else none

/-- The elements of an array, on the input after the opening bracket of a
non-empty array: values separated by commas up to the closing bracket. `pv`
reads one value. The first argument bounds the number of elements. -/
def parseElements (pv : List Byte → Option (JValue × List Byte)) :
    Nat → List Byte → Option (List JValue × List Byte)
  | 0, _ => none
  | n + 1, inp =>
    match pv inp with
    | none => none
    | some (v, r) =>
      match skipWS r with
      | [] => none
      | c :: r1 =>
        if c = 0x2C then
          match parseElements pv n r1 with
          | none => none
          | some (vs, r2) => some (v :: vs, r2)
        else if c = 0x5D then some ([v], r1)
        else none

/-- The members of an object, on the input at the opening quote of a key:
`"key" : value` separated by commas up to the closing brace. `pv` reads one
value. The first argument bounds the number of members. -/
def parseMembers (pv : List Byte → Option (JValue × List Byte)) :
    Nat → List Byte → Option (List (GoString × JValue) × List Byte)
  | 0, _ => none
  | n + 1, inp =>
    match inp with
    | [] => none
    | q :: t =>
      if q = 0x22 then
        match parseString t with
        | none => none
        | some (k, r) =>
          match skipWS r with
          | [] => none
          | colon :: r1 =>
            if colon = 0x3A then
              match pv r1 with
              | none => none
              | some (v, r2) =>
                match skipWS r2 with
                | [] => none
                | c :: r3 =>
                  if c = 0x2C then
                    match parseMembers pv n (skipWS r3) with
                    | none => none
                    | some (ms, r4) => some ((k, v) :: ms, r4)
                  else if c = 0x7D then some ([(k, v)], r3)
                  else none
            else none
      else none

/-- One JSON value at the front of the input, after optional white space, and
the input after it. The first argument bounds the nesting: a value read with
`d + 1` holds arrays and objects nested at most `d` deep. -/
def parseValue : Nat → List Byte → Option (JValue × List Byte)
  | 0, _ => none
  | d + 1, inp =>
    match skipWS inp with
    | [] => none
    | c :: t =>
      if c = 0x7B then
        match skipWS t with
        | [] => none
        | c1 :: t1 =>
          if c1 = 0x7D then some (.object [], t1)
          else
            match parseMembers (parseValue d) (c1 :: t1).length (c1 :: t1) with
            | none => none
            | some (ms, r) => some (.object ms, r)
      else if c = 0x5B then
        match skipWS t with
        | [] => none
        | c1 :: t1 =>
          if c1 = 0x5D then some (.array [], t1)
          else
            match parseElements (parseValue d) (c1 :: t1).length (c1 :: t1) with
            | none => none
            | some (vs, r) => some (.array vs, r)
      else if c = 0x22 then
        match parseString t with
        | none => none
        | some (s, r) => some (.string s, r)
      else if c = 0x74 then
        match dropPrefix [0x74, 0x72, 0x75, 0x65] (c :: t) with
        | none => none
        | some r => some (.bool true, r)
      else if c = 0x66 then
        match dropPrefix [0x66, 0x61, 0x6C, 0x73, 0x65] (c :: t) with
        | none => none
        | some r => some (.bool false, r)
      else if c = 0x6E then
        match dropPrefix [0x6E, 0x75, 0x6C, 0x6C] (c :: t) with
        | none => none
        | some r => some (.null, r)
      else
        match parseNumber (c :: t) with
        | none => none
        | some (raw, r) => some (.number raw, r)

/-- The scanner's `maxNestingDepth`. -/
def maxNestingDepth : Nat := 10000

/-- The whole input as one JSON value between optional white space, the check
of `checkValid` together with the reading of the value. -/
def parseDocument (data : List Byte) : Option JValue :=
  match parseValue (maxNestingDepth + 1) data with
  | none => none
  | some (v, rest) => if (skipWS rest).isEmpty then some v else none

/-- The function `foldRune` of `encoding/json`, the smallest rune of the case
fold set of `r`: an ASCII letter folds to its capital, and so do the long s
(U+017F) and the Kelvin sign (U+212A), the two other runes whose fold set has
an ASCII letter. For every other rune the fold set has no ASCII rune; Go
returns its smallest member, the model the rune itself, which makes no
difference when a folded key is compared with the folded ASCII name of a
field. -/
def foldRune (r : Nat) : Nat :=
  if 0x61 ≤ r ∧ r ≤ 0x7A then r - 0x20
  else if r = 0x17F then 0x53
  else if r = 0x212A then 0x4B
  else r

/-- The loop of `appendFoldedName`: ASCII letters are made capitals, other
runes are decoded, folded and encoded again. The first argument bounds the
number of steps. -/
def foldNameLoop : Nat → List Byte → List Byte
  | 0, _ => []
  | n + 1, inp =>
    match inp with
    | [] => []
    | c :: t =>
      if c.val < RuneSelf then
        (if 0x61 ≤ c.val ∧ c.val ≤ 0x7A then byteOf (c.val - 0x20) else c) :: foldNameLoop n t
      else
        let (r, size) := DecodeRune (c :: t)
        EncodeRune (foldRune r) ++ foldNameLoop n ((c :: t).drop size)

/-- The function `foldName` of `encoding/json`. -/
def foldName (name : List Byte) : List Byte := foldNameLoop name.length name

/-- The field a key of an object selects: the field with exactly this name,
otherwise the first field whose folded name is the folded key, `none` for an
unknown key. -/
def fieldIndex (names : List GoString) (key : GoString) : Option Nat :=
  match names.indexOf? key with
  | some i => some i
  | none => (names.map foldName).indexOf? (foldName key)

/-- The error of `json.Unmarshal`: the input is not one JSON value
(`SyntaxError`), or a JSON value does not fit the Go type it is stored into
(`UnmarshalTypeError`). -/
inductive DecodeError where
  | syntaxError
  | typeError (field : String)
  deriving DecidableEq, Repr

/-- Storing a JSON value into a Go `string`: a string is stored, `null` leaves
the old value, anything else is a type error. -/
def storeString (field : String) (old : GoString) (v : JValue) : Except DecodeError GoString :=
  match v with
  | .string s => .ok s
  | .null => .ok old
  | _ => .error (.typeError field)

/-- The JSON names of the fields of `CredentialsOIDCProvider`, in the order of
declaration. -/
def providerFieldNames : List GoString :=
  [lit "subject", lit "provider", lit "initial_id_token", lit "initial_access_token",
   lit "initial_refresh_token", lit "current_id_token", lit "current_access_token",
   lit "current_refresh_token", lit "organization"]

/-- Storing one member of a JSON object into a `CredentialsOIDCProvider`: the
key selects the field, an unknown key is skipped. -/
def storeProviderMember (p : CredentialsOIDCProvider) (m : GoString × JValue) :
    Except DecodeError CredentialsOIDCProvider :=
  match fieldIndex providerFieldNames m.1 with
  | some 0 => (storeString "subject" p.Subject m.2).map (fun s => { p with Subject := s })
  | some 1 => (storeString "provider" p.Provider m.2).map (fun s => { p with Provider := s })
  | some 2 =>
    (storeString "initial_id_token" p.InitialIDToken m.2).map
      (fun s => { p with InitialIDToken := s })
  | some 3 =>
    (storeString "initial_access_token" p.InitialAccessToken m.2).map
      (fun s => { p with InitialAccessToken := s })
  | some 4 =>
    (storeString "initial_refresh_token" p.InitialRefreshToken m.2).map
      (fun s => { p with InitialRefreshToken := s })
  | some 5 =>
    (storeString "current_id_token" p.CurrentIDToken m.2).map
      (fun s => { p with CurrentIDToken := s })
  | some 6 =>
    (storeString "current_access_token" p.CurrentAccessToken m.2).map
      (fun s => { p with CurrentAccessToken := s })
  | some 7 =>
    (storeString "current_refresh_token" p.CurrentRefreshToken m.2).map
      (fun s => { p with CurrentRefreshToken := s })
  | some 8 =>
    (storeString "organization" p.Organization m.2).map (fun s => { p with Organization := s })
  | _ => .ok p

/-- Storing the members of a JSON object, in their order. -/
def storeProviderMembers :
    List (GoString × JValue) → CredentialsOIDCProvider → Except DecodeError CredentialsOIDCProvider
  | [], p => .ok p
  | m :: ms, p =>
    match storeProviderMember p m with
    | .error e => .error e
    | .ok p1 => storeProviderMembers ms p1

/-- Storing a JSON value into a `CredentialsOIDCProvider`: the members of an
object are stored one after the other, `null` leaves the old value, anything
else is a type error. -/
def storeProvider (old : CredentialsOIDCProvider) (v : JValue) :
    Except DecodeError CredentialsOIDCProvider :=
  match v with
  | .object ms => storeProviderMembers ms old
  | .null => .ok old
  | _ => .error (.typeError "providers")

/-- The zero value of `CredentialsOIDCProvider`. -/
def CredentialsOIDCProvider.zero : CredentialsOIDCProvider := ⟨[], [], [], [], [], [], [], [], []⟩

/-- Storing the elements of a JSON array into a slice (`decodeState.array`):
element `i` is stored into the old element `i` when the old slice has one and
into a zero value otherwise; the slice ends up as long as the array. The
spare capacity of the old slice is not modelled. -/
def storeProviders :
    List JValue → List CredentialsOIDCProvider → Except DecodeError (List CredentialsOIDCProvider)
  | [], _ => .ok []
  | e :: es, old =>
    match storeProvider (old.headD CredentialsOIDCProvider.zero) e with
    | .error err => .error err
    | .ok p =>
      match storeProviders es old.tail with
      | .error err => .error err
      | .ok ps => .ok (p :: ps)

/-- Storing one member of a JSON object into a `CredentialsOIDC`: the key
`providers` takes `null` (the slice becomes nil) or an array. -/
def storeCredentialsMember (c : CredentialsOIDC) (m : GoString × JValue) :
    Except DecodeError CredentialsOIDC :=
  match fieldIndex [lit "providers"] m.1 with
  | some 0 =>
    match m.2 with
    | .null => .ok ⟨none⟩
    | .array es => (storeProviders es c.links).map (fun l => ⟨some l⟩)
    | _ => .error (.typeError "providers")
  | _ => .ok c

/-- Storing the members of a JSON object, in their order. -/
def storeCredentialsMembers :
    List (GoString × JValue) → CredentialsOIDC → Except DecodeError CredentialsOIDC
  | [], c => .ok c
  | m :: ms, c =>
    match storeCredentialsMember c m with
    | .error e => .error e
    | .ok c1 => storeCredentialsMembers ms c1

/-- Storing a JSON value into a `CredentialsOIDC`. -/
def storeCredentials (old : CredentialsOIDC) (v : JValue) : Except DecodeError CredentialsOIDC :=
  match v with
  | .object ms => storeCredentialsMembers ms old
  | .null => .ok old
  | _ => .error (.typeError "CredentialsOIDC")

/-- The call `json.Unmarshal(data, &c)` for a zero `CredentialsOIDC` `c`:
decoding a payload as a `CredentialsOIDC`. -/
def Unmarshal (data : List Byte) : Except DecodeError CredentialsOIDC :=
  match parseDocument data with
  | none => .error .syntaxError
  | some v => storeCredentials ⟨none⟩ v

/-! ## The functions of `credentials_oidc.go` -/

/-- The function `OIDCUniqueID`. -/
def OIDCUniqueID (provider subject : GoString) : GoString :=
  Sprintf (lit "%s:%s") [provider, subject]

/-- The function `NewCredentialsOIDC`: Go's pair of a credential and an error
is an `Except`, the error case standing for a nil credential. -/
def NewCredentialsOIDC (idToken accessToken refreshToken provider subject organization : GoString) :
    Except Error Credentials :=
  if provider = [] then .error (.new "received empty provider in oidc credentials")
  else if subject = [] then .error (.new "received empty provider in oidc credentials")
  else
    match Encode
        { Providers := some
            [ { Subject := subject
                Provider := provider
                InitialIDToken := idToken
                InitialAccessToken := accessToken
                InitialRefreshToken := refreshToken
                CurrentIDToken := idToken
                CurrentAccessToken := accessToken
                CurrentRefreshToken := refreshToken
                Organization := organization } ] } with
    | .error err =>
      .error (.pseudoPanic ("Unable to encode password options to JSON: " ++ reprStr err))
    | .ok b =>
      .ok { «Type» := CredentialsTypeOIDC
            Identifiers := [OIDCUniqueID provider subject]
            Config := b }

/-- The loop of `Organization` over the links still to be seen. -/
def organizationLoop : List CredentialsOIDCProvider → GoString
  | [] => []
  | p :: ps => if p.Organization ≠ [] then p.Organization else organizationLoop ps

/-- The method `CredentialsOIDC.Organization`. -/
def CredentialsOIDC.Organization (c : CredentialsOIDC) : GoString :=
  organizationLoop c.links

/-- The loop of `GetProvider` over the links still to be seen, `k` being the
index of the first of them. -/
def getProviderLoop (provider subject : GoString) :
    List CredentialsOIDCProvider → Nat → Int × Bool
  | [], _ => (-1, false)
  | p :: ps, k =>
    if p.Subject = subject ∧ p.Provider = provider then ((k : Int), true)
    else getProviderLoop provider subject ps (k + 1)

/-- The method `CredentialsOIDC.GetProvider`. -/
def CredentialsOIDC.GetProvider (c : CredentialsOIDC) (provider subject : GoString) : Int × Bool :=
  getProviderLoop provider subject c.links 0

/-! ## Definitions used to state the theorems -/

/-- The fields the struct encoder writes: those not skipped by `omitempty`. -/
def written (fs : List EncField) : List EncField :=
  fs.filter (fun f => !(f.omitEmpty && f.isEmptyValue))

/-- The fields written, each with the JSON value it is read back as. -/
def writtenV (fvs : List (EncField × JValue)) : List (EncField × JValue) :=
  fvs.filter (fun g => !(g.1.omitEmpty && g.1.isEmptyValue))

/-- The members of the JSON object that the encoding of a provider link is
read back as: the eight fields without `omitempty`, and `organization` when
it is not empty; every string coerced to valid UTF-8. -/
def providerMembers (p : CredentialsOIDCProvider) : List (GoString × JValue) :=
  [ (lit "subject", .string (coerceUTF8 p.Subject)),
    (lit "provider", .string (coerceUTF8 p.Provider)),
    (lit "initial_id_token", .string (coerceUTF8 p.InitialIDToken)),
    (lit "initial_access_token", .string (coerceUTF8 p.InitialAccessToken)),
    (lit "initial_refresh_token", .string (coerceUTF8 p.InitialRefreshToken)),
    (lit "current_id_token", .string (coerceUTF8 p.CurrentIDToken)),
    (lit "current_access_token", .string (coerceUTF8 p.CurrentAccessToken)),
    (lit "current_refresh_token", .string (coerceUTF8 p.CurrentRefreshToken)) ]
  ++ (if p.Organization = [] then []
      else [(lit "organization", .string (coerceUTF8 p.Organization))])

/-- The JSON value that the encoding of the slice `Providers` is read back
as. -/
def providersJSON (ps : Option (List CredentialsOIDCProvider)) : JValue :=
  match ps with
  | none => .null
  | some l => .array (l.map (fun p => .object (providerMembers p)))

/-- The syntax tree that the encoding of a `CredentialsOIDC` is read back as:
one object with the single key `providers`. -/
def credentialsJSON (c : CredentialsOIDC) : JValue :=
  .object [(lit "providers", providersJSON c.Providers)]

/-- A provider link with every string coerced to valid UTF-8. -/
def CredentialsOIDCProvider.coerced (p : CredentialsOIDCProvider) : CredentialsOIDCProvider :=
  { Subject := coerceUTF8 p.Subject
    Provider := coerceUTF8 p.Provider
    InitialIDToken := coerceUTF8 p.InitialIDToken
    InitialAccessToken := coerceUTF8 p.InitialAccessToken
    InitialRefreshToken := coerceUTF8 p.InitialRefreshToken
    CurrentIDToken := coerceUTF8 p.CurrentIDToken
    CurrentAccessToken := coerceUTF8 p.CurrentAccessToken
    CurrentRefreshToken := coerceUTF8 p.CurrentRefreshToken
    Organization := coerceUTF8 p.Organization }

/-- A `CredentialsOIDC` with every string of every link coerced to valid
UTF-8; a nil slice stays nil. -/
def CredentialsOIDC.coerced (c : CredentialsOIDC) : CredentialsOIDC :=
  ⟨c.Providers.map (fun l => l.map CredentialsOIDCProvider.coerced)⟩

/-- The provider link that `NewCredentialsOIDC` encodes. -/
def newLink (idToken accessToken refreshToken provider subject organization : GoString) :
    CredentialsOIDCProvider :=
  { Subject := subject
    Provider := provider
    InitialIDToken := idToken
    InitialAccessToken := accessToken
    InitialRefreshToken := refreshToken
    CurrentIDToken := idToken
    CurrentAccessToken := accessToken
    CurrentRefreshToken := refreshToken
    Organization := organization }

/-- Whether every string of a provider link is valid UTF-8. -/
def CredentialsOIDCProvider.validUTF8 (p : CredentialsOIDCProvider) : Bool :=
  ValidString p.Subject && ValidString p.Provider && ValidString p.InitialIDToken &&
  ValidString p.InitialAccessToken && ValidString p.InitialRefreshToken &&
  ValidString p.CurrentIDToken && ValidString p.CurrentAccessToken &&
  ValidString p.CurrentRefreshToken && ValidString p.Organization

/-- Whether every string of every link is valid UTF-8. -/
def CredentialsOIDC.validUTF8 (c : CredentialsOIDC) : Bool :=
  c.links.all CredentialsOIDCProvider.validUTF8

/-! ## Lemmas on `unicode/utf8` and `encoding/json` -/

theorem byteOf_val (b : Byte) : byteOf b.val = b := by
  apply Fin.ext
  simp [byteOf]

theorem byteOf_eq (n : Nat) (b : Byte) (h : n % 256 = b.val) : byteOf n = b := by
  apply Fin.ext
  simpa [byteOf] using h

theorem ite_err (p : Prop) [Decidable p] (x : Nat × Nat) (c : Nat) (size : Nat)
    (h : (if p then ((65533 : Nat), 1) else x) = (c, size)) (hne : ¬ (c = 65533 ∧ size = 1)) :
    ¬ p ∧ x = (c, size) := by
  by_cases hp : p
  · rw [if_pos hp] at h
    obtain ⟨hc, hs⟩ := Prod.mk.inj h
    exact absurd ⟨hc.symm, hs.symm⟩ hne
  · rw [if_neg hp] at h
    exact ⟨hp, h⟩

theorem err_ne (c : Nat) (size : Nat) (h : ((65533 : Nat), 1) = (c, size))
    (hne : ¬ (c = 65533 ∧ size = 1)) : False := by
  obtain ⟨hc, hs⟩ := Prod.mk.inj h
  exact hne ⟨hc.symm, hs.symm⟩

/-- The shapes of a valid multi-byte encoding at the front of a string. -/
theorem DecodeRune_shape (b : Byte) (t : List Byte) (c : Nat) (size : Nat)
    (h : DecodeRune (b :: t) = (c, size)) (hne : ¬ (c = RuneError ∧ size = 1))
    (hb : 0x80 ≤ b.val) :
    (∃ b1 t1, t = b1 :: t1 ∧ size = 2 ∧ c = 64 * (b.val % 32) + b1.val % 64 ∧
        0xC2 ≤ b.val ∧ b.val < 0xE0 ∧ 0x80 ≤ b1.val ∧ b1.val ≤ 0xBF) ∨
    (∃ b1 b2 t2, t = b1 :: b2 :: t2 ∧ size = 3 ∧
        c = 4096 * (b.val % 16) + 64 * (b1.val % 64) + b2.val % 64 ∧
        0xE0 ≤ b.val ∧ b.val < 0xF0 ∧ 0x80 ≤ b1.val ∧ b1.val ≤ 0xBF ∧
        (b.val = 0xE0 → 0xA0 ≤ b1.val) ∧ (b.val = 0xED → b1.val ≤ 0x9F) ∧
        0x80 ≤ b2.val ∧ b2.val ≤ 0xBF) ∨
    (∃ b1 b2 b3 t3, t = b1 :: b2 :: b3 :: t3 ∧ size = 4 ∧
        c = 262144 * (b.val % 8) + 4096 * (b1.val % 64) + 64 * (b2.val % 64) + b3.val % 64 ∧
        0xF0 ≤ b.val ∧ b.val ≤ 0xF4 ∧ 0x80 ≤ b1.val ∧ b1.val ≤ 0xBF ∧
        (b.val = 0xF0 → 0x90 ≤ b1.val) ∧ (b.val = 0xF4 → b1.val ≤ 0x8F) ∧
        0x80 ≤ b2.val ∧ b2.val ≤ 0xBF ∧ 0x80 ≤ b3.val ∧ b3.val ≤ 0xBF) := by
  simp only [RuneError] at hne
  unfold DecodeRune at h
  dsimp only at h
  simp only [RuneError] at h
  have hsz : ∀ sz : Nat, (if b.val < 224 then 2 else if b.val < 240 then 3 else 4) = sz →
      (b.val < 224 → sz = 2) ∧ (224 ≤ b.val → b.val < 240 → sz = 3) ∧ (240 ≤ b.val → sz = 4) := by
    intro sz e
    subst e
    split_ifs <;> omega
  have hlo : ∀ lo : Nat, (if b.val = 224 then 160 else if b.val = 240 then 144 else 128) = lo →
      128 ≤ lo ∧ (b.val = 224 → lo = 160) ∧ (b.val = 240 → lo = 144) ∧ lo ≤ 160 := by
    intro lo e
    subst e
    split_ifs <;> omega
  have hhi : ∀ hi : Nat, (if b.val = 237 then 159 else if b.val = 244 then 143 else 191) = hi →
      hi ≤ 191 ∧ (b.val = 237 → hi = 159) ∧ (b.val = 244 → hi = 143) ∧ 143 ≤ hi := by
    intro hi e
    subst e
    split_ifs <;> omega
  generalize esz : (if b.val < 224 then 2 else if b.val < 240 then 3 else 4) = sz at h
  generalize elo : (if b.val = 224 then 160 else if b.val = 240 then 144 else 128) = lo at h
  generalize ehi : (if b.val = 237 then 159 else if b.val = 244 then 143 else 191) = hi at h
  have fsz := hsz sz esz
  have flo := hlo lo elo
  have fhi := hhi hi ehi
  clear hsz hlo hhi esz elo ehi
  have h1 : ¬ b.val < 128 := by omega
  rw [if_neg h1] at h
  obtain ⟨h2, h⟩ := ite_err _ _ _ _ h hne
  obtain ⟨h3, h⟩ := ite_err _ _ _ _ h hne
  obtain ⟨h4, h⟩ := ite_err _ _ _ _ h hne
  rcases t with _ | ⟨b1, t1⟩
  · exact (err_ne _ _ h hne).elim
  dsimp only at h
  obtain ⟨h5, h⟩ := ite_err _ _ _ _ h hne
  by_cases s2 : sz ≤ 2
  · rw [if_pos s2] at h
    obtain ⟨hc, hs⟩ := Prod.mk.inj h
    refine Or.inl ⟨b1, t1, rfl, hs.symm, hc.symm, ?_⟩
    omega
  rw [if_neg s2] at h
  rcases t1 with _ | ⟨b2, t2⟩
  · exact (err_ne _ _ h hne).elim
  dsimp only at h
  obtain ⟨h6, h⟩ := ite_err _ _ _ _ h hne
  by_cases s3 : sz ≤ 3
  · rw [if_pos s3] at h
    obtain ⟨hc, hs⟩ := Prod.mk.inj h
    refine Or.inr (Or.inl ⟨b1, b2, t2, rfl, hs.symm, hc.symm, ?_⟩)
    omega
  rw [if_neg s3] at h
  rcases t2 with _ | ⟨b3, t3⟩
  · exact (err_ne _ _ h hne).elim
  dsimp only at h
  obtain ⟨h7, h⟩ := ite_err _ _ _ _ h hne
  obtain ⟨hc, hs⟩ := Prod.mk.inj h
  refine Or.inr (Or.inr ⟨b1, b2, b3, t3, rfl, hs.symm, hc.symm, ?_⟩)
  omega

theorem DecodeRune_two (b b1 : Byte) (x : List Byte)
    (h : 0xC2 ≤ b.val ∧ b.val < 0xE0 ∧ 0x80 ≤ b1.val ∧ b1.val ≤ 0xBF) :
    DecodeRune (b :: b1 :: x) = (64 * (b.val % 32) + b1.val % 64, 2) := by
  unfold DecodeRune
  dsimp only
  have e1 : ¬ b.val < 128 := by omega
  have e2 : ¬ b.val < 194 := by omega
  have e3 : ¬ 244 < b.val := by omega
  have e4 : b.val < 224 := by omega
  have e5 : ¬ b.val = 224 := by omega
  have e6 : ¬ b.val = 240 := by omega
  have e7 : ¬ b.val = 237 := by omega
  have e8 : ¬ b.val = 244 := by omega
  rw [if_neg e1, if_neg e2, if_neg e3, if_pos e4, if_neg e5, if_neg e6, if_neg e7, if_neg e8]
  rw [if_neg (by simp only [List.length_cons]; omega), if_neg (by omega), if_pos (le_refl 2)]

theorem DecodeRune_three (b b1 b2 : Byte) (x : List Byte)
    (h : 0xE0 ≤ b.val ∧ b.val < 0xF0 ∧ 0x80 ≤ b1.val ∧ b1.val ≤ 0xBF ∧
        (b.val = 0xE0 → 0xA0 ≤ b1.val) ∧ (b.val = 0xED → b1.val ≤ 0x9F) ∧
        0x80 ≤ b2.val ∧ b2.val ≤ 0xBF) :
    DecodeRune (b :: b1 :: b2 :: x) =
      (4096 * (b.val % 16) + 64 * (b1.val % 64) + b2.val % 64, 3) := by
  unfold DecodeRune
  dsimp only
  have e1 : ¬ b.val < 128 := by omega
  have e2 : ¬ b.val < 194 := by omega
  have e3 : ¬ 244 < b.val := by omega
  have e4 : ¬ b.val < 224 := by omega
  have e5 : b.val < 240 := by omega
  have e6 : ¬ b.val = 240 := by omega
  have e8 : ¬ b.val = 244 := by omega
  rw [if_neg e1, if_neg e2, if_neg e3, if_neg e4, if_pos e5, if_neg e6, if_neg e8]
  rw [if_neg (by simp only [List.length_cons]; omega),
    if_neg (by split_ifs <;> omega), if_neg (by omega), if_neg (by omega), if_pos (le_refl 3)]

theorem DecodeRune_four (b b1 b2 b3 : Byte) (x : List Byte)
    (h : 0xF0 ≤ b.val ∧ b.val ≤ 0xF4 ∧ 0x80 ≤ b1.val ∧ b1.val ≤ 0xBF ∧
        (b.val = 0xF0 → 0x90 ≤ b1.val) ∧ (b.val = 0xF4 → b1.val ≤ 0x8F) ∧
        0x80 ≤ b2.val ∧ b2.val ≤ 0xBF ∧ 0x80 ≤ b3.val ∧ b3.val ≤ 0xBF) :
    DecodeRune (b :: b1 :: b2 :: b3 :: x) =
      (262144 * (b.val % 8) + 4096 * (b1.val % 64) + 64 * (b2.val % 64) + b3.val % 64, 4) := by
  unfold DecodeRune
  dsimp only
  have e1 : ¬ b.val < 128 := by omega
  have e2 : ¬ b.val < 194 := by omega
  have e3 : ¬ 244 < b.val := by omega
  have e4 : ¬ b.val < 224 := by omega
  have e5 : ¬ b.val < 240 := by omega
  have e6 : ¬ b.val = 224 := by omega
  have e8 : ¬ b.val = 237 := by omega
  rw [if_neg e1, if_neg e2, if_neg e3, if_neg e4, if_neg e5, if_neg e6, if_neg e8]
  rw [if_neg (by simp only [List.length_cons]; omega),
    if_neg (by split_ifs <;> omega), if_neg (by omega), if_neg (by omega), if_neg (by omega),
    if_neg (by omega)]

theorem EncodeRune_two (b b1 : Byte)
    (h : 0xC2 ≤ b.val ∧ b.val < 0xE0 ∧ 0x80 ≤ b1.val ∧ b1.val ≤ 0xBF) :
    EncodeRune (64 * (b.val % 32) + b1.val % 64) = [b, b1] := by
  unfold EncodeRune
  rw [if_neg (by omega), if_pos (by omega)]
  congr 1
  · exact byteOf_eq _ _ (by omega)
  · congr 1
    exact byteOf_eq _ _ (by omega)

theorem EncodeRune_three (b b1 b2 : Byte)
    (h : 0xE0 ≤ b.val ∧ b.val < 0xF0 ∧ 0x80 ≤ b1.val ∧ b1.val ≤ 0xBF ∧
        (b.val = 0xE0 → 0xA0 ≤ b1.val) ∧ (b.val = 0xED → b1.val ≤ 0x9F) ∧
        0x80 ≤ b2.val ∧ b2.val ≤ 0xBF) :
    EncodeRune (4096 * (b.val % 16) + 64 * (b1.val % 64) + b2.val % 64) = [b, b1, b2] := by
  unfold EncodeRune MaxRune
  rw [if_neg (by omega), if_neg (by omega), if_neg (by omega), if_pos (by omega)]
  congr 1
  · exact byteOf_eq _ _ (by omega)
  · congr 1
    · exact byteOf_eq _ _ (by omega)
    · congr 1
      exact byteOf_eq _ _ (by omega)

theorem EncodeRune_four (b b1 b2 b3 : Byte)
    (h : 0xF0 ≤ b.val ∧ b.val ≤ 0xF4 ∧ 0x80 ≤ b1.val ∧ b1.val ≤ 0xBF ∧
        (b.val = 0xF0 → 0x90 ≤ b1.val) ∧ (b.val = 0xF4 → b1.val ≤ 0x8F) ∧
        0x80 ≤ b2.val ∧ b2.val ≤ 0xBF ∧ 0x80 ≤ b3.val ∧ b3.val ≤ 0xBF) :
    EncodeRune (262144 * (b.val % 8) + 4096 * (b1.val % 64) + 64 * (b2.val % 64) + b3.val % 64)
      = [b, b1, b2, b3] := by
  unfold EncodeRune MaxRune
  rw [if_neg (by omega), if_neg (by omega), if_neg (by omega), if_neg (by omega)]
  congr 1
  · exact byteOf_eq _ _ (by omega)
  · congr 1
    · exact byteOf_eq _ _ (by omega)
    · congr 1
      · exact byteOf_eq _ _ (by omega)
      · congr 1
        exact byteOf_eq _ _ (by omega)

/-- A decoded multi-byte rune is encoded back to the bytes it was read from,
and it is decoded the same way whatever follows these bytes. -/
theorem DecodeRune_valid (b : Byte) (t : List Byte) (c : Nat) (size : Nat)
    (h : DecodeRune (b :: t) = (c, size)) (hne : ¬ (c = RuneError ∧ size = 1))
    (hb : 0x80 ≤ b.val) :
    2 ≤ size ∧ size ≤ (b :: t).length ∧ EncodeRune c = (b :: t).take size ∧
      ∀ x, DecodeRune ((b :: t).take size ++ x) = (c, size) := by
  rcases DecodeRune_shape b t c size h hne hb with
    ⟨b1, t1, rfl, rfl, rfl, hr⟩ | ⟨b1, b2, t2, rfl, rfl, rfl, hr⟩ |
    ⟨b1, b2, b3, t3, rfl, rfl, rfl, hr⟩
  · refine ⟨le_refl _, by simp, EncodeRune_two b b1 hr, fun x => ?_⟩
    exact DecodeRune_two b b1 _ hr
  · refine ⟨by omega, by simp, EncodeRune_three b b1 b2 hr, fun x => ?_⟩
    exact DecodeRune_three b b1 b2 _ hr
  · refine ⟨by omega, by simp, EncodeRune_four b b1 b2 b3 hr, fun x => ?_⟩
    exact DecodeRune_four b b1 b2 b3 _ hr

theorem DecodeRune_take (b : Byte) (t : List Byte) :
    DecodeRune ((b :: t).take UTFMax) = DecodeRune (b :: t) := by
  rcases t with _ | ⟨b1, _ | ⟨b2, _ | ⟨b3, t⟩⟩⟩
  · rfl
  · rfl
  · rfl
  · have e : (b :: b1 :: b2 :: b3 :: t).take UTFMax = [b, b1, b2, b3] := rfl
    rw [e]
    unfold DecodeRune
    dsimp only
    have hsz : ∀ sz : Nat, (if b.val < 224 then 2 else if b.val < 240 then 3 else 4) = sz →
        sz ≤ 4 := by
      intro sz e
      subst e
      split_ifs <;> omega
    generalize esz : (if b.val < 224 then 2 else if b.val < 240 then 3 else 4) = sz
    have fsz := hsz sz esz
    rw [if_neg (by simp only [List.length_cons, List.length_nil]; omega :
        ¬ [b1, b2, b3].length + 1 < sz),
      if_neg (by simp only [List.length_cons]; omega :
        ¬ (b1 :: b2 :: b3 :: t).length + 1 < sz)]

theorem unquoteLoop_safe (b : Byte) (hb : b.val < 0x80) (hs : htmlSafeSet b = true)
    (m : Nat) (tl : List Byte) :
    unquoteLoop (m + 1) (b :: tl) = prepend [b] (unquoteLoop m tl) := by
  simp only [htmlSafeSet, Bool.and_eq_true, decide_eq_true_eq, bne_iff_ne, ne_eq] at hs
  obtain ⟨⟨⟨⟨⟨h20, h22⟩, _⟩, _⟩, _⟩, h5c⟩ := hs
  have hr : b.val < RuneSelf := hb
  conv_lhs => unfold unquoteLoop
  dsimp only
  rw [if_neg h22, if_neg h5c, if_neg (by omega), if_pos hr]

theorem unquoteLoop_ufffd (m : Nat) (tl : List Byte) :
    unquoteLoop (m + 1) ([0x5C, 0x75, 0x66, 0x66, 0x66, 0x64] ++ tl) =
      prepend [0xEF, 0xBF, 0xBD] (unquoteLoop m tl) := rfl

theorem unquoteLoop_u2028 (m : Nat) (tl : List Byte) :
    unquoteLoop (m + 1) ([0x5C, 0x75, 0x32, 0x30, 0x32, hexDigit (0x2028 % 16)] ++ tl) =
      prepend (EncodeRune 0x2028) (unquoteLoop m tl) := rfl

theorem unquoteLoop_u2029 (m : Nat) (tl : List Byte) :
    unquoteLoop (m + 1) ([0x5C, 0x75, 0x32, 0x30, 0x32, hexDigit (0x2029 % 16)] ++ tl) =
      prepend (EncodeRune 0x2029) (unquoteLoop m tl) := rfl

set_option maxRecDepth 100000 in
theorem escape_cases : ∀ b : Byte, b.val < 0x80 → htmlSafeSet b = false →
    b ∈ ([0,1,2,3,4,5,6,7,8,9,10,11,12,13,14,15,16,17,18,19,20,21,22,23,24,25,26,27,28,29,30,31,
      0x22, 0x26, 0x3C, 0x3E, 0x5C] : List Byte) := by decide

theorem unquoteLoop_escape (b : Byte) (hb : b.val < 0x80) (hs : htmlSafeSet b = false)
    (m : Nat) (tl : List Byte) :
    unquoteLoop (m + 1) (escapeByte b ++ tl) = prepend [b] (unquoteLoop m tl) := by
  have hm := escape_cases b hb hs
  simp only [List.mem_cons, List.mem_singleton, List.not_mem_nil, or_false] at hm
  rcases hm with h | h | h | h | h | h | h | h | h | h | h | h | h | h | h | h | h | h | h | h |
    h | h | h | h | h | h | h | h | h | h | h | h | h | h | h | h | h
  all_goals
    subst h
    rfl

theorem escapeByte_length (b : Byte) : 1 ≤ (escapeByte b).length := by
  unfold escapeByte
  split_ifs <;> simp

theorem unquoteLoop_multi (b : Byte) (t : List Byte) (c size : Nat)
    (h : DecodeRune (b :: t) = (c, size)) (hne : ¬ (c = RuneError ∧ size = 1))
    (hb : ¬ b.val < RuneSelf) (m : Nat) (tl : List Byte) :
    unquoteLoop (m + 1) ((b :: t).take size ++ tl) =
      prepend ((b :: t).take size) (unquoteLoop m tl) := by
  have hb2 : 0x80 ≤ b.val := by
    simp only [RuneSelf] at hb
    omega
  obtain ⟨h2, hlen, henc, hdec⟩ := DecodeRune_valid b t c size h hne hb2
  obtain ⟨k, rfl⟩ : ∃ k, size = k + 1 := ⟨size - 1, by omega⟩
  have hd := hdec tl
  have hdrop : ((b :: t).take (k + 1) ++ tl).drop (k + 1) = tl := by
    apply List.drop_left'
    rw [List.length_take]
    omega
  rw [← henc] at hd hdrop ⊢
  have e : (b :: t).take (k + 1) = b :: t.take k := rfl
  rw [e] at henc
  rw [henc] at hd hdrop ⊢
  rw [List.cons_append] at hd hdrop ⊢
  conv_lhs => unfold unquoteLoop
  dsimp only
  have h22 : ¬ b = 0x22 := by
    intro hh
    rw [hh] at hb2
    revert hb2
    decide
  have h5c : ¬ b = 0x5C := by
    intro hh
    rw [hh] at hb2
    revert hb2
    decide
  rw [if_neg h22, if_neg h5c, if_neg (by omega), if_neg hb, hd]
  dsimp only
  rw [hdrop, henc]

theorem appendStringLoop_cons (n : Nat) (b : Byte) (t : List Byte) :
    appendStringLoop (n + 1) (b :: t) =
      if b.val < RuneSelf then
        if htmlSafeSet b then b :: appendStringLoop n t
        else escapeByte b ++ appendStringLoop n t
      else
        if (DecodeRune ((b :: t).take UTFMax)).1 = RuneError ∧
            (DecodeRune ((b :: t).take UTFMax)).2 = 1 then
          [0x5C, 0x75, 0x66, 0x66, 0x66, 0x64] ++ appendStringLoop n t
        else if (DecodeRune ((b :: t).take UTFMax)).1 = 0x2028 ∨
            (DecodeRune ((b :: t).take UTFMax)).1 = 0x2029 then
          [0x5C, 0x75, 0x32, 0x30, 0x32, hexDigit ((DecodeRune ((b :: t).take UTFMax)).1 % 16)]
            ++ appendStringLoop n ((b :: t).drop (DecodeRune ((b :: t).take UTFMax)).2)
        else (b :: t).take (DecodeRune ((b :: t).take UTFMax)).2
            ++ appendStringLoop n ((b :: t).drop (DecodeRune ((b :: t).take UTFMax)).2) := rfl

theorem coerceLoop_cons (n : Nat) (b : Byte) (t : List Byte) :
    coerceLoop (n + 1) (b :: t) =
      if b.val < RuneSelf then b :: coerceLoop n t
      else
        if (DecodeRune (b :: t)).1 = RuneError ∧ (DecodeRune (b :: t)).2 = 1 then
          [0xEF, 0xBF, 0xBD] ++ coerceLoop n t
        else (b :: t).take (DecodeRune (b :: t)).2
            ++ coerceLoop n ((b :: t).drop (DecodeRune (b :: t)).2) := rfl

theorem unquote_appendStringLoop : ∀ (n : Nat) (s : List Byte), s.length ≤ n →
    ∀ (m : Nat) (rest : List Byte), (appendStringLoop n s).length + 1 ≤ m →
      unquoteLoop m (appendStringLoop n s ++ 0x22 :: rest) = some (coerceLoop n s, rest) := by
  intro n
  induction n with
  | zero =>
    intro s _ m rest hm
    obtain ⟨m, rfl⟩ : ∃ k, m = k + 1 := ⟨m - 1, by omega⟩
    rfl
  | succ n ih =>
    intro s hs m rest hm
    obtain ⟨m, rfl⟩ : ∃ k, m = k + 1 := ⟨m - 1, by omega⟩
    rcases s with _ | ⟨b, t⟩
    · rfl
    have ht : t.length ≤ n := by
      simp only [List.length_cons] at hs
      omega
    rw [appendStringLoop_cons] at hm ⊢
    rw [coerceLoop_cons]
    by_cases hb : b.val < RuneSelf
    · rw [if_pos hb] at hm ⊢
      rw [if_pos hb]
      by_cases hsafe : htmlSafeSet b = true
      · rw [if_pos hsafe] at hm ⊢
        rw [List.cons_append, unquoteLoop_safe b hb hsafe,
          ih t ht m rest (by simp only [List.length_cons] at hm; omega)]
        rfl
      · rw [if_neg hsafe] at hm ⊢
        have hl := escapeByte_length b
        rw [List.append_assoc, unquoteLoop_escape b hb (by simpa using hsafe),
          ih t ht m rest (by simp only [List.length_append] at hm; omega)]
        rfl
    · rw [if_neg hb] at hm ⊢
      rw [if_neg hb]
      rw [DecodeRune_take] at hm ⊢
      rcases hd : DecodeRune (b :: t) with ⟨c, size⟩
      rw [hd] at hm
      dsimp only at hm ⊢
      by_cases herr : c = RuneError ∧ size = 1
      · rw [if_pos herr] at hm ⊢
        rw [if_pos herr]
        rw [List.append_assoc, unquoteLoop_ufffd,
          ih t ht m rest (by simp only [List.length_append, List.length_cons] at hm; omega)]
        rfl
      · rw [if_neg herr] at hm ⊢
        rw [if_neg herr]
        have hb2 : 0x80 ≤ b.val := by
          simp only [RuneSelf] at hb
          omega
        obtain ⟨h2, hlen, henc, hdec⟩ := DecodeRune_valid b t c size hd herr hb2
        have hdl : ((b :: t).drop size).length ≤ n := by
          rw [List.length_drop]
          simp only [List.length_cons] at hs ⊢
          omega
        by_cases hsep : c = 0x2028 ∨ c = 0x2029
        · rw [if_pos hsep] at hm ⊢
          have hstep : unquoteLoop (m + 1)
              ([0x5C, 0x75, 0x32, 0x30, 0x32, hexDigit (c % 16)] ++
                (appendStringLoop n ((b :: t).drop size) ++ 0x22 :: rest)) =
              prepend (EncodeRune c)
                (unquoteLoop m (appendStringLoop n ((b :: t).drop size) ++ 0x22 :: rest)) := by
            rcases hsep with rfl | rfl
            · exact unquoteLoop_u2028 m _
            · exact unquoteLoop_u2029 m _
          rw [List.append_assoc, hstep, henc,
            ih _ hdl m rest (by simp only [List.length_append, List.length_cons] at hm; omega)]
          rfl
        · rw [if_neg hsep] at hm ⊢
          have hl : 1 ≤ ((b :: t).take size).length := by
            rw [List.length_take]
            simp only [List.length_cons] at hlen ⊢
            omega
          rw [List.append_assoc, unquoteLoop_multi b t c size hd herr hb,
            ih _ hdl m rest (by simp only [List.length_append] at hm; omega)]
          rfl

theorem appendStringLoop_length_le (s : List Byte) (rest : List Byte) :
    (appendStringLoop s.length s).length + 1 ≤
      (appendStringLoop s.length s ++ 0x22 :: rest).length := by
  simp only [List.length_append, List.length_cons]
  omega

/-- Reading back the string literal that `appendString` writes gives the
string coerced to valid UTF-8, whatever follows the literal. -/
theorem parseString_appendString (s : GoString) (rest : List Byte) :
    parseString (appendStringLoop s.length s ++ 0x22 :: rest) = some (coerceUTF8 s, rest) := by
  unfold parseString coerceUTF8
  exact unquote_appendStringLoop s.length s (le_refl _) _ rest
    (appendStringLoop_length_le s rest)

theorem appendString_eq (s : GoString) (rest : List Byte) :
    appendString s ++ rest = 0x22 :: (appendStringLoop s.length s ++ 0x22 :: rest) := by
  simp [appendString]

theorem skipWS_cons (b : Byte) (t : List Byte)
    (h : ¬ (b = 0x20 ∨ b = 0x09 ∨ b = 0x0D ∨ b = 0x0A)) : skipWS (b :: t) = b :: t := by
  rw [skipWS, if_neg h]

theorem skipWS_quote (t : List Byte) : skipWS (0x22 :: t) = 0x22 :: t :=
  skipWS_cons _ _ (by decide)

theorem parseValue_string (d : Nat) (s : GoString) (rest : List Byte) :
    parseValue (d + 1) (appendString s ++ rest) = some (.string (coerceUTF8 s), rest) := by
  rw [appendString_eq]
  conv_lhs => unfold parseValue
  rw [skipWS_quote]
  dsimp only
  rw [if_neg (by decide), if_neg (by decide), if_pos rfl, parseString_appendString]

theorem coerceLoop_valid : ∀ (n : Nat) (s : List Byte), s.length ≤ n → validLoop n s = true →
    coerceLoop n s = s := by
  intro n
  induction n with
  | zero =>
    intro s hs _
    have : s = [] := List.length_eq_zero.1 (by omega)
    subst this
    rfl
  | succ n ih =>
    intro s hs hv
    rcases s with _ | ⟨b, t⟩
    · rfl
    have ht : t.length ≤ n := by
      simp only [List.length_cons] at hs
      omega
    rw [coerceLoop_cons]
    have hv2 : (if b.val < RuneSelf then validLoop n t
        else if (DecodeRune (b :: t)).1 = RuneError ∧ (DecodeRune (b :: t)).2 = 1 then false
        else validLoop n ((b :: t).drop (DecodeRune (b :: t)).2)) = true := hv
    by_cases hb : b.val < RuneSelf
    · rw [if_pos hb] at hv2 ⊢
      rw [ih t ht hv2]
    · rw [if_neg hb] at hv2 ⊢
      generalize hd : DecodeRune (b :: t) = r at hv2 ⊢
      obtain ⟨c, size⟩ := r
      dsimp only at hv2 ⊢
      by_cases herr : c = RuneError ∧ size = 1
      · rw [if_pos herr] at hv2
        cases hv2
      · rw [if_neg herr] at hv2 ⊢
        have hb2 : 0x80 ≤ b.val := by
          simp only [RuneSelf] at hb
          omega
        obtain ⟨h2, hlen, -, -⟩ := DecodeRune_valid b t c size hd herr hb2
        rw [ih _ (by rw [List.length_drop]; simp only [List.length_cons] at hs ⊢; omega) hv2]
        exact List.take_append_drop _ _

/-- A valid UTF-8 string is not changed by the coercion. -/
theorem coerceUTF8_valid (s : GoString) (h : ValidString s = true) : coerceUTF8 s = s :=
  coerceLoop_valid s.length s (le_refl _) h

theorem skipWS_colon (t : List Byte) : skipWS (0x3A :: t) = 0x3A :: t :=
  skipWS_cons _ _ (by decide)

theorem skipWS_comma (t : List Byte) : skipWS (0x2C :: t) = 0x2C :: t :=
  skipWS_cons _ _ (by decide)

theorem skipWS_rbrace (t : List Byte) : skipWS (0x7D :: t) = 0x7D :: t :=
  skipWS_cons _ _ (by decide)

theorem skipWS_rbracket (t : List Byte) : skipWS (0x5D :: t) = 0x5D :: t :=
  skipWS_cons _ _ (by decide)

theorem skipWS_lbrace (t : List Byte) : skipWS (0x7B :: t) = 0x7B :: t :=
  skipWS_cons _ _ (by decide)

theorem skipWS_lbracket (t : List Byte) : skipWS (0x5B :: t) = 0x5B :: t :=
  skipWS_cons _ _ (by decide)

/-- One member `"name":value` read by `parseMembers`, up to the separator that
follows it. -/
theorem parseMembers_step (pv : List Byte → Option (JValue × List Byte)) (n : Nat)
    (name : GoString) (enc : List Byte) (v : JValue) (X : List Byte)
    (hpv : pv (enc ++ X) = some (v, X)) :
    parseMembers pv (n + 1) (appendString name ++ (0x3A :: (enc ++ X))) =
      match skipWS X with
      | [] => none
      | c :: r3 =>
        if c = 0x2C then
          match parseMembers pv n (skipWS r3) with
          | none => none
          | some (ms, r4) => some ((coerceUTF8 name, v) :: ms, r4)
        else if c = 0x7D then some ([(coerceUTF8 name, v)], r3)
        else none := by
  rw [appendString_eq]
  conv_lhs => unfold parseMembers
  dsimp only
  rw [if_pos rfl, parseString_appendString]
  dsimp only
  rw [skipWS_colon]
  dsimp only
  rw [if_pos rfl, hpv]
  try rfl

theorem structFieldLoop_written (fs : List EncField) (first : Bool) :
    structFieldLoop fs first = structFieldLoop (written fs) first := by
  induction fs generalizing first with
  | nil => rfl
  | cons f fs ih =>
    unfold written
    by_cases h : (f.omitEmpty && f.isEmptyValue) = true
    · rw [List.filter_cons_of_neg (by rw [h]; decide)]
      conv_lhs => unfold structFieldLoop
      rw [if_pos h]
      exact ih first
    · rw [List.filter_cons_of_pos (by
        cases hx : (f.omitEmpty && f.isEmptyValue)
        · rfl
        · exact absurd hx h)]
      conv_lhs => unfold structFieldLoop
      conv_rhs => unfold structFieldLoop
      rw [if_neg h, if_neg h]
      rw [ih false]
      rfl

theorem written_written (fs : List EncField) :
    ∀ g ∈ written fs, (g.omitEmpty && g.isEmptyValue) = false := by
  intro g hg
  have := (List.mem_filter.1 hg).2
  cases hx : (g.omitEmpty && g.isEmptyValue)
  · rfl
  · rw [hx] at this
    cases this

theorem structFieldLoop_cons (f : EncField) (fs : List EncField) (first : Bool)
    (h : (f.omitEmpty && f.isEmptyValue) = false) :
    structFieldLoop (f :: fs) first =
      (if first then [0x7B] else [0x2C]) ++ appendString f.name ++ [0x3A] ++ f.encoded
        ++ structFieldLoop fs false := by
  conv_lhs => unfold structFieldLoop
  rw [if_neg (by simp [h])]

theorem parseMembers_fields (pv : List Byte → Option (JValue × List Byte)) :
    ∀ (fs : List (EncField × JValue)) (f : EncField × JValue) (rest : List Byte) (fuel : Nat),
      (∀ g ∈ f :: fs, (g.1.omitEmpty && g.1.isEmptyValue) = false) →
      (∀ g ∈ f :: fs, ∀ X, pv (g.1.encoded ++ X) = some (g.2, X)) →
      fs.length + 1 ≤ fuel →
      parseMembers pv fuel
          (appendString f.1.name ++
            (0x3A :: (f.1.encoded ++ (structFieldLoop (fs.map Prod.fst) false ++ 0x7D :: rest))))
        = some ((f :: fs).map (fun g => (coerceUTF8 g.1.name, g.2)), rest) := by
  intro fs
  induction fs with
  | nil =>
    intro f rest fuel _ hpv hfuel
    obtain ⟨n, rfl⟩ : ∃ k, fuel = k + 1 := ⟨fuel - 1, by simp at hfuel; omega⟩
    rw [parseMembers_step pv n f.1.name f.1.encoded f.2 _ (hpv f (List.mem_cons_self _ _) _)]
    have e : structFieldLoop (List.map Prod.fst ([] : List (EncField × JValue))) false
        ++ 0x7D :: rest = 0x7D :: rest := rfl
    rw [e, skipWS_rbrace]
    dsimp only
    rw [if_neg (by decide), if_pos rfl]
    try rfl
  | cons g fs ih =>
    intro f rest fuel hw hpv hfuel
    obtain ⟨n, rfl⟩ : ∃ k, fuel = k + 1 := ⟨fuel - 1, by simp at hfuel; omega⟩
    rw [parseMembers_step pv n f.1.name f.1.encoded f.2 _ (hpv f (List.mem_cons_self _ _) _)]
    have hg : (g.1.omitEmpty && g.1.isEmptyValue) = false :=
      hw g (List.mem_cons_of_mem _ (List.mem_cons_self _ _))
    have e : structFieldLoop (List.map Prod.fst (g :: fs)) false ++ 0x7D :: rest =
        0x2C :: (appendString g.1.name ++
          (0x3A :: (g.1.encoded ++
            (structFieldLoop (fs.map Prod.fst) false ++ 0x7D :: rest)))) := by
      rw [List.map_cons, structFieldLoop_cons g.1 _ false hg]
      simp
    rw [e, skipWS_comma]
    dsimp only
    rw [if_pos rfl]
    have e2 : skipWS (appendString g.1.name ++
          (0x3A :: (g.1.encoded ++
            (structFieldLoop (fs.map Prod.fst) false ++ 0x7D :: rest)))) =
        appendString g.1.name ++
          (0x3A :: (g.1.encoded ++
            (structFieldLoop (fs.map Prod.fst) false ++ 0x7D :: rest))) := by
      rw [appendString_eq, skipWS_quote]
    rw [e2, ih g rest n (fun x hx => hw x (List.mem_cons_of_mem _ hx))
      (fun x hx => hpv x (List.mem_cons_of_mem _ hx))
      (by simp only [List.length_cons] at hfuel; omega)]
    try rfl

theorem structAllSkipped_written (fs : List EncField) :
    structAllSkipped fs = (written fs).isEmpty := by
  induction fs with
  | nil => rfl
  | cons f fs ih =>
    unfold structAllSkipped written at *
    cases hx : (f.omitEmpty && f.isEmptyValue)
    · rw [List.filter_cons_of_pos (by rw [hx]; rfl)]
      simp [List.all_cons, hx]
    · rw [List.filter_cons_of_neg (by rw [hx]; decide)]
      rw [List.all_cons, hx, Bool.true_and]
      exact ih

theorem structFieldLoop_length (l : List EncField) (b : Bool)
    (hg : ∀ g ∈ l, (g.omitEmpty && g.isEmptyValue) = false) :
    l.length ≤ (structFieldLoop l b).length := by
  induction l generalizing b with
  | nil => simp
  | cons g l ih =>
    rw [structFieldLoop_cons g l b (hg g (List.mem_cons_self _ _))]
    have := ih false (fun x hx => hg x (List.mem_cons_of_mem _ hx))
    simp only [List.length_cons, List.length_append]
    split_ifs <;> simp <;> omega

theorem writtenV_map (fvs : List (EncField × JValue)) :
    written (fvs.map Prod.fst) = (writtenV fvs).map Prod.fst := by
  unfold written writtenV
  induction fvs with
  | nil => rfl
  | cons g fvs ih =>
    rw [List.map_cons]
    cases hx : (g.1.omitEmpty && g.1.isEmptyValue)
    · rw [List.filter_cons_of_pos (by rw [hx]; rfl), List.filter_cons_of_pos (by rw [hx]; rfl),
        List.map_cons, ih]
    · rw [List.filter_cons_of_neg (by rw [hx]; decide),
        List.filter_cons_of_neg (by rw [hx]; decide), ih]

/-- Reading back a struct that the struct encoder wrote: an object with one
member for every field written, in the order of the fields. -/
theorem parseValue_struct (d : Nat) (fvs : List (EncField × JValue)) (rest : List Byte)
    (hpv : ∀ g ∈ writtenV fvs, ∀ X, parseValue d (g.1.encoded ++ X) = some (g.2, X)) :
    parseValue (d + 1) (structEncode (fvs.map Prod.fst) ++ rest) =
      some (.object ((writtenV fvs).map (fun g => (coerceUTF8 g.1.name, g.2))), rest) := by
  unfold structEncode
  rw [structAllSkipped_written, structFieldLoop_written, writtenV_map]
  have hws : ∀ g ∈ writtenV fvs, (g.1.omitEmpty && g.1.isEmptyValue) = false := by
    intro g hg
    have := (List.mem_filter.1 hg).2
    cases hx : (g.1.omitEmpty && g.1.isEmptyValue)
    · rfl
    · rw [hx] at this
      cases this
  rcases hw : writtenV fvs with _ | ⟨f, gs⟩
  · rw [if_pos (show (List.map Prod.fst ([] : List (EncField × JValue))).isEmpty = true from rfl)]
    conv_lhs => unfold parseValue
    have e : [0x7B, 0x7D] ++ rest = 0x7B :: 0x7D :: rest := rfl
    rw [e, skipWS_lbrace]
    dsimp only
    rw [if_pos rfl, skipWS_rbrace]
    dsimp only
    rw [if_pos rfl]
    try rfl
  · rw [if_neg (by simp)]
    rw [hw] at hws hpv
    have e : structFieldLoop (List.map Prod.fst (f :: gs)) true ++ [0x7D] ++ rest =
        0x7B :: 0x22 :: (appendStringLoop f.1.name.length f.1.name ++ 0x22 ::
          (0x3A :: (f.1.encoded ++
            (structFieldLoop (gs.map Prod.fst) false ++ 0x7D :: rest)))) := by
      rw [List.map_cons, structFieldLoop_cons f.1 _ true (hws f (List.mem_cons_self _ _))]
      simp [appendString]
    rw [e]
    conv_lhs => unfold parseValue
    rw [skipWS_lbrace]
    dsimp only
    rw [if_pos rfl, skipWS_quote]
    dsimp only
    rw [if_neg (by decide)]
    rw [← appendString_eq]
    rw [parseMembers_fields (parseValue d) gs f rest _ hws hpv ?_]
    rw [appendString_eq]
    simp only [List.length_cons, List.length_append]
    have := structFieldLoop_length (gs.map Prod.fst) false (by
      intro x hx
      obtain ⟨y, hy, rfl⟩ := List.mem_map.1 hx
      exact hws y (List.mem_cons_of_mem _ hy))
    rw [List.length_map] at this
    omega

theorem arrayElemLoop_cons (e : List Byte) (es : List (List Byte)) :
    arrayElemLoop (e :: es) false = 0x2C :: (e ++ arrayElemLoop es false) := rfl

theorem parseElements_list {α : Type} (pv : List Byte → Option (JValue × List Byte))
    (enc : α → List Byte) (jv : α → JValue) :
    ∀ (xs : List α) (x : α) (rest : List Byte) (fuel : Nat),
      (∀ y ∈ x :: xs, ∀ X, pv (enc y ++ X) = some (jv y, X)) →
      xs.length + 1 ≤ fuel →
      parseElements pv fuel (enc x ++ (arrayElemLoop (xs.map enc) false ++ 0x5D :: rest))
        = some ((x :: xs).map jv, rest) := by
  intro xs
  induction xs with
  | nil =>
    intro x rest fuel hpv hfuel
    obtain ⟨n, rfl⟩ : ∃ k, fuel = k + 1 := ⟨fuel - 1, by simp at hfuel; omega⟩
    conv_lhs => unfold parseElements
    rw [hpv x (List.mem_cons_self _ _)]
    have e : arrayElemLoop (List.map enc []) false ++ 0x5D :: rest = 0x5D :: rest := rfl
    dsimp only
    rw [e, skipWS_rbracket]
    dsimp only
    rw [if_neg (by decide), if_pos rfl]
    rfl
  | cons y ys ih =>
    intro x rest fuel hpv hfuel
    obtain ⟨n, rfl⟩ : ∃ k, fuel = k + 1 := ⟨fuel - 1, by simp at hfuel; omega⟩
    conv_lhs => unfold parseElements
    rw [hpv x (List.mem_cons_self _ _)]
    have e : arrayElemLoop (List.map enc (y :: ys)) false ++ 0x5D :: rest =
        0x2C :: (enc y ++ (arrayElemLoop (ys.map enc) false ++ 0x5D :: rest)) := by
      rw [List.map_cons, arrayElemLoop_cons]
      simp
    dsimp only
    rw [e, skipWS_comma]
    dsimp only
    rw [if_pos rfl, ih y rest n (fun z hz => hpv z (List.mem_cons_of_mem _ hz))
      (by simp only [List.length_cons] at hfuel; omega)]
    rfl

theorem coerce_names :
    coerceUTF8 (lit "subject") = lit "subject" ∧
    coerceUTF8 (lit "provider") = lit "provider" ∧
    coerceUTF8 (lit "initial_id_token") = lit "initial_id_token" ∧
    coerceUTF8 (lit "initial_access_token") = lit "initial_access_token" ∧
    coerceUTF8 (lit "initial_refresh_token") = lit "initial_refresh_token" ∧
    coerceUTF8 (lit "current_id_token") = lit "current_id_token" ∧
    coerceUTF8 (lit "current_access_token") = lit "current_access_token" ∧
    coerceUTF8 (lit "current_refresh_token") = lit "current_refresh_token" ∧
    coerceUTF8 (lit "organization") = lit "organization" ∧
    coerceUTF8 (lit "providers") = lit "providers" := by decide

theorem parseValue_provider (d : Nat) (p : CredentialsOIDCProvider) (rest : List Byte) :
    parseValue (d + 2) (p.marshal ++ rest) = some (.object (providerMembers p), rest) := by
  have e : p.encFields = List.map Prod.fst
      [ ((⟨lit "subject", false, p.Subject.isEmpty, appendString p.Subject⟩ : EncField),
          JValue.string (coerceUTF8 p.Subject)),
        (⟨lit "provider", false, p.Provider.isEmpty, appendString p.Provider⟩,
          .string (coerceUTF8 p.Provider)),
        (⟨lit "initial_id_token", false, p.InitialIDToken.isEmpty,
            appendString p.InitialIDToken⟩, .string (coerceUTF8 p.InitialIDToken)),
        (⟨lit "initial_access_token", false, p.InitialAccessToken.isEmpty,
            appendString p.InitialAccessToken⟩, .string (coerceUTF8 p.InitialAccessToken)),
        (⟨lit "initial_refresh_token", false, p.InitialRefreshToken.isEmpty,
            appendString p.InitialRefreshToken⟩, .string (coerceUTF8 p.InitialRefreshToken)),
        (⟨lit "current_id_token", false, p.CurrentIDToken.isEmpty,
            appendString p.CurrentIDToken⟩, .string (coerceUTF8 p.CurrentIDToken)),
        (⟨lit "current_access_token", false, p.CurrentAccessToken.isEmpty,
            appendString p.CurrentAccessToken⟩, .string (coerceUTF8 p.CurrentAccessToken)),
        (⟨lit "current_refresh_token", false, p.CurrentRefreshToken.isEmpty,
            appendString p.CurrentRefreshToken⟩, .string (coerceUTF8 p.CurrentRefreshToken)),
        (⟨lit "organization", true, p.Organization.isEmpty, appendString p.Organization⟩,
          .string (coerceUTF8 p.Organization)) ] := rfl
  unfold CredentialsOIDCProvider.marshal
  rw [e, parseValue_struct (d + 1) _ rest]
  · obtain ⟨n1, n2, n3, n4, n5, n6, n7, n8, n9, -⟩ := coerce_names
    by_cases ho : p.Organization = []
    · simp [writtenV, providerMembers, ho, n1, n2, n3, n4, n5, n6, n7, n8]
    · have ho2 : p.Organization.isEmpty = false := by
        cases hp : p.Organization with
        | nil => exact absurd hp ho
        | cons a l => rfl
      simp [writtenV, providerMembers, ho, ho2, n1, n2, n3, n4, n5, n6, n7, n8, n9]
  · intro g hg X
    have hg2 := (List.mem_filter.1 hg).1
    simp only [List.mem_cons, List.mem_singleton, List.not_mem_nil, or_false] at hg2
    rcases hg2 with rfl | rfl | rfl | rfl | rfl | rfl | rfl | rfl | rfl
    all_goals exact parseValue_string d _ X

theorem structEncode_head (fs : List EncField) :
    ∃ tl, structEncode fs = 0x7B :: tl := by
  unfold structEncode
  by_cases h : structAllSkipped fs = true
  · rw [if_pos h]
    exact ⟨_, rfl⟩
  · rw [if_neg h, structFieldLoop_written]
    rcases hw : written fs with _ | ⟨f, gs⟩
    · rw [structAllSkipped_written, hw] at h
      exact absurd rfl h
    · have := written_written fs
      rw [hw] at this
      rw [structFieldLoop_cons f gs true (this f (List.mem_cons_self _ _))]
      exact ⟨_, rfl⟩

theorem arrayElemLoop_length (es : List (List Byte)) :
    es.length ≤ (arrayElemLoop es false).length := by
  induction es with
  | nil => simp
  | cons e es ih =>
    rw [arrayElemLoop_cons]
    simp only [List.length_cons, List.length_append]
    omega

theorem parseValue_null (d : Nat) (rest : List Byte) :
    parseValue (d + 1) ([0x6E, 0x75, 0x6C, 0x6C] ++ rest) = some (.null, rest) := by
  conv_lhs => unfold parseValue
  have e : [0x6E, 0x75, 0x6C, 0x6C] ++ rest = 0x6E :: 0x75 :: 0x6C :: 0x6C :: rest := rfl
  rw [e, skipWS_cons _ _ (by decide)]
  dsimp only
  rw [if_neg (by decide), if_neg (by decide), if_neg (by decide), if_neg (by decide),
    if_neg (by decide), if_pos rfl]
  have e2 : dropPrefix [0x6E, 0x75, 0x6C, 0x6C] (0x6E :: 0x75 :: 0x6C :: 0x6C :: rest)
      = some rest := by
    simp [dropPrefix, List.isPrefixOf]
  rw [e2]

theorem parseValue_providers (d : Nat) (ps : Option (List CredentialsOIDCProvider))
    (rest : List Byte) :
    parseValue (d + 3)
        (sliceEncode (ps.map (fun l => l.map CredentialsOIDCProvider.marshal)) ++ rest) =
      some (providersJSON ps, rest) := by
  rcases ps with _ | l
  · exact parseValue_null (d + 2) rest
  rcases l with _ | ⟨p, l⟩
  · show parseValue (d + 3) (0x5B :: 0x5D :: rest) = some (.array [], rest)
    conv_lhs => unfold parseValue
    rw [skipWS_lbracket]
    dsimp only
    rw [if_neg (by decide), if_pos rfl, skipWS_rbracket]
    dsimp only
    rw [if_pos rfl]
  · obtain ⟨tl, htl⟩ := structEncode_head p.encFields
    have e : sliceEncode (Option.map (fun l => l.map CredentialsOIDCProvider.marshal)
          (some (p :: l))) ++ rest =
        0x5B :: (p.marshal ++
          (arrayElemLoop (l.map CredentialsOIDCProvider.marshal) false ++ 0x5D :: rest)) := by
      simp [sliceEncode, arrayElemLoop]
    rw [e]
    conv_lhs => unfold parseValue
    rw [skipWS_lbracket]
    dsimp only
    rw [if_neg (by decide), if_pos rfl]
    have hm : p.marshal = 0x7B :: tl := htl
    have e2 : p.marshal ++
          (arrayElemLoop (l.map CredentialsOIDCProvider.marshal) false ++ 0x5D :: rest) =
        0x7B :: (tl ++
          (arrayElemLoop (l.map CredentialsOIDCProvider.marshal) false ++ 0x5D :: rest)) := by
      rw [hm]
      rfl
    have hfuel : l.length + 1 ≤ (0x7B :: (tl ++
          (arrayElemLoop (l.map CredentialsOIDCProvider.marshal) false
            ++ 0x5D :: rest))).length := by
      have := arrayElemLoop_length (l.map CredentialsOIDCProvider.marshal)
      rw [List.length_map] at this
      simp only [List.length_cons, List.length_append]
      omega
    have hp := parseElements_list (parseValue (d + 2)) CredentialsOIDCProvider.marshal
      (fun p => JValue.object (providerMembers p)) l p rest _
      (fun y _ X => parseValue_provider d y X) hfuel
    rw [e2] at hp ⊢
    rw [skipWS_lbrace]
    dsimp only
    rw [if_neg (by decide), hp]
    rfl

theorem parseValue_credentials (d : Nat) (c : CredentialsOIDC) (rest : List Byte) :
    parseValue (d + 4) (c.marshal ++ rest) = some (credentialsJSON c, rest) := by
  have e : c.marshal = structEncode (List.map Prod.fst
      [ ((⟨lit "providers", false, c.links.isEmpty,
            sliceEncode (c.Providers.map (fun l => l.map CredentialsOIDCProvider.marshal))⟩
          : EncField), providersJSON c.Providers) ]) := rfl
  rw [e, parseValue_struct (d + 3) _ rest]
  · simp [writtenV, credentialsJSON, coerce_names.2.2.2.2.2.2.2.2.2]
  · intro g hg X
    have hg2 := (List.mem_filter.1 hg).1
    simp only [List.mem_singleton] at hg2
    subst hg2
    exact parseValue_providers d c.Providers X

/-- The bytes that `Encode` writes for `c` are one JSON document, read back as
`credentialsJSON c`. -/
theorem parseDocument_marshal (c : CredentialsOIDC) :
    parseDocument (c.marshal ++ [0x0A]) = some (credentialsJSON c) := by
  unfold parseDocument
  have e : maxNestingDepth + 1 = 9997 + 4 := rfl
  rw [e, parseValue_credentials 9997 c [0x0A]]
  rfl

theorem fieldIndex_names :
    fieldIndex providerFieldNames (lit "subject") = some 0 ∧
    fieldIndex providerFieldNames (lit "provider") = some 1 ∧
    fieldIndex providerFieldNames (lit "initial_id_token") = some 2 ∧
    fieldIndex providerFieldNames (lit "initial_access_token") = some 3 ∧
    fieldIndex providerFieldNames (lit "initial_refresh_token") = some 4 ∧
    fieldIndex providerFieldNames (lit "current_id_token") = some 5 ∧
    fieldIndex providerFieldNames (lit "current_access_token") = some 6 ∧
    fieldIndex providerFieldNames (lit "current_refresh_token") = some 7 ∧
    fieldIndex providerFieldNames (lit "organization") = some 8 ∧
    fieldIndex [lit "providers"] (lit "providers") = some 0 := by decide

theorem coerceUTF8_nil : coerceUTF8 [] = [] := rfl

theorem storeProvider_members (p : CredentialsOIDCProvider) :
    storeProvider CredentialsOIDCProvider.zero (.object (providerMembers p)) = .ok p.coerced := by
  obtain ⟨i0, i1, i2, i3, i4, i5, i6, i7, i8, -⟩ := fieldIndex_names
  by_cases ho : p.Organization = []
  · simp [storeProvider, providerMembers, ho, storeProviderMembers, storeProviderMember,
      i0, i1, i2, i3, i4, i5, i6, i7, storeString, Except.map,
      CredentialsOIDCProvider.zero, CredentialsOIDCProvider.coerced, coerceUTF8_nil]
  · simp [storeProvider, providerMembers, ho, storeProviderMembers, storeProviderMember,
      i0, i1, i2, i3, i4, i5, i6, i7, i8, storeString, Except.map,
      CredentialsOIDCProvider.zero, CredentialsOIDCProvider.coerced]

theorem storeProviders_list (l : List CredentialsOIDCProvider) :
    storeProviders (l.map (fun p => JValue.object (providerMembers p))) [] =
      .ok (l.map CredentialsOIDCProvider.coerced) := by
  induction l with
  | nil => rfl
  | cons p l ih =>
    rw [List.map_cons]
    conv_lhs => unfold storeProviders
    have e : ([] : List CredentialsOIDCProvider).headD CredentialsOIDCProvider.zero =
        CredentialsOIDCProvider.zero := rfl
    have e2 : ([] : List CredentialsOIDCProvider).tail = [] := rfl
    rw [e, e2, storeProvider_members p]
    dsimp only
    rw [ih]
    rfl

theorem storeCredentials_json (c : CredentialsOIDC) :
    storeCredentials ⟨none⟩ (credentialsJSON c) = .ok c.coerced := by
  have i9 := fieldIndex_names.2.2.2.2.2.2.2.2.2
  rcases c with ⟨_ | l⟩
  · simp [storeCredentials, credentialsJSON, storeCredentialsMembers, storeCredentialsMember, i9,
      providersJSON, CredentialsOIDC.coerced]
  · have hl := storeProviders_list l
    simp [storeCredentials, credentialsJSON, storeCredentialsMembers, storeCredentialsMember, i9,
      providersJSON, CredentialsOIDC.coerced, CredentialsOIDC.links, hl, Except.map]

/-- Decoding what `Encode` wrote for `c` gives `c` with every string coerced to
valid UTF-8. -/
theorem Unmarshal_marshal (c : CredentialsOIDC) :
    Unmarshal (c.marshal ++ [0x0A]) = .ok c.coerced := by
  unfold Unmarshal
  rw [parseDocument_marshal]
  exact storeCredentials_json c

/-! ## The canonical identifier -/

theorem sprintfLoop_id (provider subject : GoString) :
    sprintfLoop (lit "%s:%s") [provider, subject] = provider ++ 0x3A :: subject := by
  have h : lit "%s:%s" = [0x25, 0x73, 0x3A, 0x25, 0x73] := by decide
  rw [h]
  simp [sprintfLoop]

theorem OIDCUniqueID_eq (provider subject : GoString) :
    OIDCUniqueID provider subject = provider ++ 0x3A :: subject := by
  unfold OIDCUniqueID Sprintf
  exact sprintfLoop_id provider subject

theorem lit_colon : lit ":" = [0x3A] := by decide

/-- Claim C8: for all strings `provider` and `subject`, `OIDCUniqueID` is the
concatenation `provider + ":" + subject`, neither argument being changed, and
its length is `len(provider) + 1 + len(subject)`. -/
theorem OIDCUniqueID_concat (provider subject : GoString) :
    OIDCUniqueID provider subject = provider ++ lit ":" ++ subject ∧
    (OIDCUniqueID provider subject).length = provider.length + 1 + subject.length := by
  rw [OIDCUniqueID_eq, lit_colon]
  constructor
  · simp
  · simp [List.length_append]; omega

/-! ## The builder: validation and the credential record -/

theorem NewCredentialsOIDC_ok
    (idToken accessToken refreshToken provider subject organization : GoString)
    (hp : provider ≠ []) (hs : subject ≠ []) :
    NewCredentialsOIDC idToken accessToken refreshToken provider subject organization =
      .ok { «Type» := CredentialsTypeOIDC
            Identifiers := [OIDCUniqueID provider subject]
            Config := CredentialsOIDC.marshal
              ⟨some [newLink idToken accessToken refreshToken provider subject organization]⟩
              ++ [0x0A] } := by
  simp [NewCredentialsOIDC, hp, hs, Encode, newLink]

theorem NewCredentialsOIDC_empty
    (idToken accessToken refreshToken provider subject organization : GoString)
    (h : provider = [] ∨ subject = []) :
    NewCredentialsOIDC idToken accessToken refreshToken provider subject organization =
      .error (.new "received empty provider in oidc credentials") := by
  unfold NewCredentialsOIDC
  by_cases hp : provider = []
  · simp [hp]
  · have hs : subject = [] := h.resolve_left hp
    simp [hp, hs]

/-- Claim C1: `NewCredentialsOIDC` returns an error exactly when `provider` or
`subject` is empty and a credential exactly when both are non-empty; the
error is never the `PseudoPanic` of the encoding branch, and whether the call
succeeds does not depend on the tokens or the organization. -/
theorem NewCredentialsOIDC_error_iff
    (idToken accessToken refreshToken provider subject organization : GoString) :
    ((∃ e, NewCredentialsOIDC idToken accessToken refreshToken provider subject organization
        = .error e) ↔ (provider = [] ∨ subject = [])) ∧
    ((∃ cred, NewCredentialsOIDC idToken accessToken refreshToken provider subject organization
        = .ok cred) ↔ (provider ≠ [] ∧ subject ≠ [])) ∧
    (∀ debug, NewCredentialsOIDC idToken accessToken refreshToken provider subject organization
        ≠ .error (.pseudoPanic debug)) ∧
    (∀ idToken2 accessToken2 refreshToken2 organization2 : GoString,
      (NewCredentialsOIDC idToken2 accessToken2 refreshToken2 provider subject
          organization2).toBool =
        (NewCredentialsOIDC idToken accessToken refreshToken provider subject
          organization).toBool) := by
  by_cases h : provider = [] ∨ subject = []
  · have e := NewCredentialsOIDC_empty idToken accessToken refreshToken provider subject
      organization h
    refine ⟨?_, ?_, ?_, ?_⟩
    · simp [e, h]
    · rw [e]
      constructor
      · rintro ⟨cred, hc⟩
        cases hc
      · rintro ⟨hp, hs⟩
        rcases h with h | h
        · exact absurd h hp
        · exact absurd h hs
    · intro debug
      rw [e]
      simp
    · intro i2 a2 r2 o2
      rw [e, NewCredentialsOIDC_empty i2 a2 r2 provider subject o2 h]
  · have hp : provider ≠ [] := fun hp => h (Or.inl hp)
    have hs : subject ≠ [] := fun hs => h (Or.inr hs)
    have e := NewCredentialsOIDC_ok idToken accessToken refreshToken provider subject
      organization hp hs
    refine ⟨?_, ?_, ?_, ?_⟩
    · rw [e]
      simp [h]
    · rw [e]
      simp [hp, hs]
    · intro debug
      rw [e]
      simp
    · intro i2 a2 r2 o2
      rw [e, NewCredentialsOIDC_ok i2 a2 r2 provider subject o2 hp hs]
      rfl

/-- Claim C2: a successful call of `NewCredentialsOIDC` (provider and subject
non-empty) returns a credential with the type tag "oidc" whose identifiers
are the one-element list of `OIDCUniqueID(provider, subject)`, which is
`provider + ":" + subject`. -/
theorem NewCredentialsOIDC_identifiers
    (idToken accessToken refreshToken provider subject organization : GoString)
    (hp : provider ≠ []) (hs : subject ≠ []) :
    ∃ cred, NewCredentialsOIDC idToken accessToken refreshToken provider subject organization
        = .ok cred ∧
      cred.«Type» = lit "oidc" ∧
      cred.Identifiers = [OIDCUniqueID provider subject] ∧
      cred.Identifiers = [provider ++ lit ":" ++ subject] := by
  refine ⟨_, NewCredentialsOIDC_ok idToken accessToken refreshToken provider subject
    organization hp hs, rfl, rfl, ?_⟩
  simp [OIDCUniqueID_eq, lit_colon]

/-- Witness of C2: provider "google" and subject "u-1" give the identifiers
["google:u-1"]. -/
theorem NewCredentialsOIDC_identifiers_witness :
    (lit "google" ≠ [] ∧ lit "u-1" ≠ []) ∧
    [lit "google" ++ lit ":" ++ lit "u-1"] = [lit "google:u-1"] ∧
    ∃ cred, NewCredentialsOIDC (lit "idt") (lit "acc") (lit "ref") (lit "google") (lit "u-1") []
        = .ok cred ∧
      cred.«Type» = lit "oidc" ∧
      cred.Identifiers = [OIDCUniqueID (lit "google") (lit "u-1")] ∧
      cred.Identifiers = [lit "google" ++ lit ":" ++ lit "u-1"] :=
  ⟨by decide, by decide,
    NewCredentialsOIDC_identifiers (lit "idt") (lit "acc") (lit "ref") (lit "google") (lit "u-1")
      [] (by decide) (by decide)⟩

/-- Claim C9: `OIDCUniqueID` is not injective: the distinct pairs
("a:b", "c") and ("a", "b:c"), of non-empty strings, have the same canonical
identifier, and `NewCredentialsOIDC` succeeds on both, whatever the tokens and
the organization, with the same list of identifiers. -/
theorem OIDCUniqueID_not_injective :
    ∃ provider1 subject1 provider2 subject2 : GoString,
      provider1 ≠ [] ∧ subject1 ≠ [] ∧ provider2 ≠ [] ∧ subject2 ≠ [] ∧
      (provider1, subject1) ≠ (provider2, subject2) ∧
      OIDCUniqueID provider1 subject1 = OIDCUniqueID provider2 subject2 ∧
      ∀ idToken accessToken refreshToken organization : GoString,
        ∃ c1 c2,
          NewCredentialsOIDC idToken accessToken refreshToken provider1 subject1 organization
            = .ok c1 ∧
          NewCredentialsOIDC idToken accessToken refreshToken provider2 subject2 organization
            = .ok c2 ∧
          c1.Identifiers = c2.Identifiers := by
  refine ⟨lit "a:b", lit "c", lit "a", lit "b:c", by decide, by decide, by decide, by decide,
    by decide, by decide, ?_⟩
  intro idToken accessToken refreshToken organization
  refine ⟨_, _, NewCredentialsOIDC_ok idToken accessToken refreshToken _ _ organization
    (by decide) (by decide), NewCredentialsOIDC_ok idToken accessToken refreshToken _ _
    organization (by decide) (by decide), ?_⟩
  show [OIDCUniqueID (lit "a:b") (lit "c")] = [OIDCUniqueID (lit "a") (lit "b:c")]
  decide

/-! ## The lookup `GetProvider` -/

theorem getProviderLoop_snd_false (provider subject : GoString)
    (l : List CredentialsOIDCProvider) (k0 : Nat) :
    (getProviderLoop provider subject l k0).2 = false ↔
      ∀ p ∈ l, ¬ (p.Provider = provider ∧ p.Subject = subject) := by
  induction l generalizing k0 with
  | nil => simp [getProviderLoop]
  | cons p ps ih =>
    unfold getProviderLoop
    by_cases h : p.Subject = subject ∧ p.Provider = provider
    · simp only [h, and_self, if_true]
      constructor
      · intro hf
        cases hf
      · intro hall
        exact absurd ⟨h.2, h.1⟩ (hall p (List.mem_cons_self _ _))
    · rw [if_neg h, ih]
      constructor
      · intro hall q hq
        rcases List.mem_cons.1 hq with rfl | hq
        · exact fun hm => h ⟨hm.2, hm.1⟩
        · exact hall q hq
      · intro hall q hq
        exact hall q (List.mem_cons_of_mem _ hq)

theorem getProviderLoop_not_found (provider subject : GoString)
    (l : List CredentialsOIDCProvider) (k0 : Nat)
    (h : (getProviderLoop provider subject l k0).2 = false) :
    getProviderLoop provider subject l k0 = (-1, false) := by
  induction l generalizing k0 with
  | nil => rfl
  | cons p ps ih =>
    unfold getProviderLoop at h ⊢
    by_cases hm : p.Subject = subject ∧ p.Provider = provider
    · rw [if_pos hm] at h
      cases h
    · rw [if_neg hm] at h ⊢
      exact ih (k0 + 1) h

theorem getProviderLoop_found (provider subject : GoString)
    (l : List CredentialsOIDCProvider) (k0 : Nat) (k : Int)
    (h : getProviderLoop provider subject l k0 = (k, true)) :
    ∃ i : Nat, k = (k0 + i : Nat) ∧ i < l.length ∧
      (∃ p, l[i]? = some p ∧ p.Provider = provider ∧ p.Subject = subject) ∧
      ∀ j q, j < i → l[j]? = some q → ¬ (q.Provider = provider ∧ q.Subject = subject) := by
  induction l generalizing k0 with
  | nil =>
    simp [getProviderLoop] at h
  | cons p ps ih =>
    unfold getProviderLoop at h
    by_cases hm : p.Subject = subject ∧ p.Provider = provider
    · rw [if_pos hm] at h
      refine ⟨0, ?_, by simp, ⟨p, by simp, hm.2, hm.1⟩, ?_⟩
      · have := congrArg Prod.fst h
        simpa using this.symm
      · intro j q hj
        omega
    · rw [if_neg hm] at h
      obtain ⟨i, hk, hi, ⟨q, hq, hq1, hq2⟩, hbefore⟩ := ih (k0 + 1) h
      refine ⟨i + 1, ?_, by simpa using hi, ⟨q, by simpa using hq, hq1, hq2⟩, ?_⟩
      · rw [hk]
        push_cast
        omega
      · intro j r hj hr
        cases j with
        | zero =>
          simp at hr
          subst hr
          exact fun hh => hm ⟨hh.2, hh.1⟩
        | succ j =>
          simp at hr
          exact hbefore j r (by omega) hr

/-- Claim C5: when `GetProvider(provider, subject)` returns `(k, true)`, then
`0 <= k < len(c.Providers)`, the link at index `k` has this provider and this
subject, and no link at a smaller index has both: the first matching link
wins. -/
theorem GetProvider_first_match (c : CredentialsOIDC) (provider subject : GoString) (k : Int)
    (h : c.GetProvider provider subject = (k, true)) :
    0 ≤ k ∧ k < (c.links.length : Int) ∧
    (∃ p, c.links[k.toNat]? = some p ∧ p.Provider = provider ∧ p.Subject = subject) ∧
    (∀ (j : Nat) q, (j : Int) < k → c.links[j]? = some q →
      ¬ (q.Provider = provider ∧ q.Subject = subject)) := by
  obtain ⟨i, hk, hi, hp, hbefore⟩ := getProviderLoop_found provider subject c.links 0 k h
  simp only [Nat.zero_add] at hk
  subst hk
  refine ⟨by omega, by omega, by simpa using hp, ?_⟩
  intro j q hj hq
  exact hbefore j q (by omega) hq

/-- Witness of C5: in a set of three links of which the second and the third
both match, the result is `(1, true)`. -/
theorem GetProvider_first_match_witness :
    (CredentialsOIDC.mk (some
        [⟨lit "u-0", lit "github", [], [], [], [], [], [], []⟩,
         ⟨lit "u-1", lit "google", [], [], [], [], [], [], []⟩,
         ⟨lit "u-1", lit "google", [], [], [], [], [], [], lit "dup"⟩])).GetProvider (lit "google") (lit "u-1") = (1, true) ∧
    0 ≤ (1 : Int) ∧
    (1 : Int) < ((CredentialsOIDC.mk (some
        [⟨lit "u-0", lit "github", [], [], [], [], [], [], []⟩,
         ⟨lit "u-1", lit "google", [], [], [], [], [], [], []⟩,
         ⟨lit "u-1", lit "google", [], [], [], [], [], [], lit "dup"⟩])).links.length : Int) ∧
    (∃ p, (CredentialsOIDC.mk (some
        [⟨lit "u-0", lit "github", [], [], [], [], [], [], []⟩,
         ⟨lit "u-1", lit "google", [], [], [], [], [], [], []⟩,
         ⟨lit "u-1", lit "google", [], [], [], [], [], [], lit "dup"⟩])).links[(1 : Int).toNat]?
          = some p ∧ p.Provider = lit "google" ∧ p.Subject = lit "u-1") ∧
    (∀ (j : Nat) q, (j : Int) < 1 →
      (CredentialsOIDC.mk (some
        [⟨lit "u-0", lit "github", [], [], [], [], [], [], []⟩,
         ⟨lit "u-1", lit "google", [], [], [], [], [], [], []⟩,
         ⟨lit "u-1", lit "google", [], [], [], [], [], [], lit "dup"⟩])).links[j]? = some q →
      ¬ (q.Provider = lit "google" ∧ q.Subject = lit "u-1")) :=
  ⟨by decide, GetProvider_first_match _ (lit "google") (lit "u-1") 1 (by decide)⟩

/-- Claim C6: `GetProvider(provider, subject)` returns `found = false` exactly
when no link has both this provider and this subject, and exactly then the
whole result is `(-1, false)`; on a set without links, nil or empty, it is
`(-1, false)`. -/
theorem GetProvider_not_found_iff (c : CredentialsOIDC) (provider subject : GoString) :
    ((c.GetProvider provider subject).2 = false ↔
      ∀ p ∈ c.links, ¬ (p.Provider = provider ∧ p.Subject = subject)) ∧
    ((c.GetProvider provider subject).2 = false ↔
      c.GetProvider provider subject = (-1, false)) ∧
    (CredentialsOIDC.mk none).GetProvider provider subject = (-1, false) ∧
    (CredentialsOIDC.mk (some [])).GetProvider provider subject = (-1, false) := by
  refine ⟨getProviderLoop_snd_false provider subject c.links 0, ⟨?_, ?_⟩, rfl, rfl⟩
  · exact getProviderLoop_not_found provider subject c.links 0
  · intro h
    unfold CredentialsOIDC.GetProvider at h ⊢
    rw [h]

/-! ## The resolver `Organization` -/

theorem organizationLoop_eq_nil (l : List CredentialsOIDCProvider) :
    organizationLoop l = [] ↔ ∀ p ∈ l, p.Organization = [] := by
  induction l with
  | nil => simp [organizationLoop]
  | cons p ps ih =>
    unfold organizationLoop
    by_cases h : p.Organization = []
    · simp [h, ih]
    · simp [h]

theorem organizationLoop_first (l : List CredentialsOIDCProvider)
    (h : organizationLoop l ≠ []) :
    ∃ (i : Nat) (p : CredentialsOIDCProvider), l[i]? = some p ∧ p.Organization ≠ [] ∧
      (∀ j q, j < i → l[j]? = some q → q.Organization = []) ∧
      organizationLoop l = p.Organization := by
  induction l with
  | nil => exact absurd rfl h
  | cons p ps ih =>
    unfold organizationLoop at h ⊢
    by_cases hp : p.Organization = []
    · simp only [hp, ne_eq, not_true_eq_false, if_false] at h ⊢
      obtain ⟨i, q, hq, hne, hbefore, heq⟩ := ih h
      refine ⟨i + 1, q, by simpa using hq, hne, ?_, heq⟩
      intro j r hj hr
      cases j with
      | zero =>
        simp at hr
        subst hr
        exact hp
      | succ j =>
        simp at hr
        exact hbefore j r (by omega) hr
    · refine ⟨0, p, by simp, hp, ?_, by simp [hp]⟩
      intro j q hj
      omega

/-- Claim C7: `Organization()` returns the empty string exactly when every
link has an empty organization (in particular without links); otherwise it
returns the organization of the link of lowest index whose organization is
not empty. For two links of which only the second carries "org-x" it returns
"org-x". -/
theorem Organization_first_nonempty (c : CredentialsOIDC) :
    (c.Organization = [] ↔ ∀ p ∈ c.links, p.Organization = []) ∧
    (c.Organization = [] ∨
      ∃ (i : Nat) (p : CredentialsOIDCProvider), c.links[i]? = some p ∧ p.Organization ≠ [] ∧
        (∀ j q, j < i → c.links[j]? = some q → q.Organization = []) ∧
        c.Organization = p.Organization) ∧
    (CredentialsOIDC.mk (some
      [⟨lit "u-0", lit "github", [], [], [], [], [], [], []⟩,
       ⟨lit "u-1", lit "google", [], [], [], [], [], [], lit "org-x"⟩])).Organization
      = lit "org-x" := by
  refine ⟨organizationLoop_eq_nil c.links, ?_, by decide⟩
  by_cases h : c.Organization = []
  · exact Or.inl h
  · exact Or.inr (organizationLoop_first c.links h)

/-! ## The payload: encoding and decoding -/

theorem coerced_valid_provider (p : CredentialsOIDCProvider) (h : p.validUTF8 = true) :
    p.coerced = p := by
  simp only [CredentialsOIDCProvider.validUTF8, Bool.and_eq_true] at h
  obtain ⟨⟨⟨⟨⟨⟨⟨⟨h1, h2⟩, h3⟩, h4⟩, h5⟩, h6⟩, h7⟩, h8⟩, h9⟩ := h
  unfold CredentialsOIDCProvider.coerced
  rw [coerceUTF8_valid _ h1, coerceUTF8_valid _ h2, coerceUTF8_valid _ h3,
    coerceUTF8_valid _ h4, coerceUTF8_valid _ h5, coerceUTF8_valid _ h6,
    coerceUTF8_valid _ h7, coerceUTF8_valid _ h8, coerceUTF8_valid _ h9]

theorem coerced_valid_list (l : List CredentialsOIDCProvider)
    (h : l.all CredentialsOIDCProvider.validUTF8 = true) :
    l.map CredentialsOIDCProvider.coerced = l := by
  induction l with
  | nil => rfl
  | cons p l ih =>
    rw [List.all_cons, Bool.and_eq_true] at h
    rw [List.map_cons, coerced_valid_provider p h.1, ih h.2]

theorem coerced_valid (c : CredentialsOIDC) (h : c.validUTF8 = true) : c.coerced = c := by
  rcases c with ⟨_ | l⟩
  · rfl
  · unfold CredentialsOIDC.coerced
    have := coerced_valid_list l h
    simp [this]

/-- Claim C4, amended: for every `CredentialsOIDC` whose strings are all valid
UTF-8 (any number of links, in any order, empty organizations included),
encoding succeeds and decoding the payload gives back an equal value: the
same links in the same order with all nine fields equal. -/
theorem Unmarshal_Encode_roundtrip (c : CredentialsOIDC) (h : c.validUTF8 = true) :
    ∃ b, Encode c = .ok b ∧ Unmarshal b = .ok c := by
  refine ⟨c.marshal ++ [0x0A], rfl, ?_⟩
  rw [Unmarshal_marshal, coerced_valid c h]

set_option maxRecDepth 100000 in
/-- Witness of C4: a set of two links, with an escaped quote, a line feed, an
HTML character, a two-byte rune and U+2028 among the strings, one
organization empty and one not. -/
theorem Unmarshal_Encode_roundtrip_witness :
    (CredentialsOIDC.mk (some
      [⟨lit "u\"1\n", lit "goo<gle", lit "idt", lit "acc", lit "ref", lit "idt2", lit "acc2",
          lit "ré f", []⟩,
       ⟨lit "u-2", lit "github", [], [], [], [], [], [], lit "org-x"⟩])).validUTF8 = true ∧
    ∃ b, Encode (CredentialsOIDC.mk (some
      [⟨lit "u\"1\n", lit "goo<gle", lit "idt", lit "acc", lit "ref", lit "idt2", lit "acc2",
          lit "ré f", []⟩,
       ⟨lit "u-2", lit "github", [], [], [], [], [], [], lit "org-x"⟩])) = .ok b ∧
      Unmarshal b = .ok (CredentialsOIDC.mk (some
      [⟨lit "u\"1\n", lit "goo<gle", lit "idt", lit "acc", lit "ref", lit "idt2", lit "acc2",
          lit "ré f", []⟩,
       ⟨lit "u-2", lit "github", [], [], [], [], [], [], lit "org-x"⟩])) :=
  ⟨by decide, Unmarshal_Encode_roundtrip _ (by decide)⟩

set_option maxRecDepth 100000 in
/-- Counterexample to C4 as stated: a link whose subject is the single byte
0xFF, which is not valid UTF-8, is decoded with the subject U+FFFD (the bytes
EF BF BD), so decoding the encoding does not give the value back. -/
theorem Unmarshal_Encode_roundtrip_fails :
    (∃ b, Encode (CredentialsOIDC.mk (some [⟨[0xFF], lit "p", [], [], [], [], [], [], []⟩]))
        = .ok b ∧
      Unmarshal b = .ok (CredentialsOIDC.mk (some
        [⟨[0xEF, 0xBF, 0xBD], lit "p", [], [], [], [], [], [], []⟩]))) ∧
    ¬ ∃ b, Encode (CredentialsOIDC.mk (some [⟨[0xFF], lit "p", [], [], [], [], [], [], []⟩]))
        = .ok b ∧
      Unmarshal b = .ok (CredentialsOIDC.mk (some
        [⟨[0xFF], lit "p", [], [], [], [], [], [], []⟩])) := by
  refine ⟨⟨_, rfl, by decide⟩, ?_⟩
  rintro ⟨b, hb, hu⟩
  have hb2 : b = (CredentialsOIDC.mk (some
      [⟨[0xFF], lit "p", [], [], [], [], [], [], []⟩])).marshal ++ [0x0A] := by
    unfold Encode at hb
    injection hb with hb
    exact hb.symm
  subst hb2
  revert hu
  decide

/-- Claim C3, amended: for every successful call of `NewCredentialsOIDC`
whose six arguments are valid UTF-8, decoding the returned `Config` as a
`CredentialsOIDC` yields exactly one link, with `Subject = subject`,
`Provider = provider`, the initial and the current tokens equal to the
tokens given, and `Organization = organization`. -/
theorem NewCredentialsOIDC_decode
    (idToken accessToken refreshToken provider subject organization : GoString)
    (hp : provider ≠ []) (hs : subject ≠ [])
    (hv : ValidString idToken = true ∧ ValidString accessToken = true ∧
      ValidString refreshToken = true ∧ ValidString provider = true ∧
      ValidString subject = true ∧ ValidString organization = true) :
    ∃ cred, NewCredentialsOIDC idToken accessToken refreshToken provider subject organization
        = .ok cred ∧
      Unmarshal cred.Config = .ok ⟨some
        [ { Subject := subject
            Provider := provider
            InitialIDToken := idToken
            InitialAccessToken := accessToken
            InitialRefreshToken := refreshToken
            CurrentIDToken := idToken
            CurrentAccessToken := accessToken
            CurrentRefreshToken := refreshToken
            Organization := organization } ]⟩ := by
  refine ⟨_, NewCredentialsOIDC_ok idToken accessToken refreshToken provider subject
    organization hp hs, ?_⟩
  obtain ⟨h1, h2, h3, h4, h5, h6⟩ := hv
  show Unmarshal (CredentialsOIDC.marshal _ ++ [0x0A]) = _
  rw [Unmarshal_marshal]
  have hc : (CredentialsOIDC.mk (some
      [newLink idToken accessToken refreshToken provider subject organization])).validUTF8
      = true := by
    simp [CredentialsOIDC.validUTF8, CredentialsOIDC.links, CredentialsOIDCProvider.validUTF8,
      newLink, h1, h2, h3, h4, h5, h6]
  rw [coerced_valid _ hc]
  rfl

set_option maxRecDepth 100000 in
/-- Witness of C3: the scenario of the specification, tokens "idt", "acc",
"ref", provider "google", subject "u-1" and no organization. -/
theorem NewCredentialsOIDC_decode_witness :
    (lit "google" ≠ [] ∧ lit "u-1" ≠ []) ∧
    (ValidString (lit "idt") = true ∧ ValidString (lit "acc") = true ∧
      ValidString (lit "ref") = true ∧ ValidString (lit "google") = true ∧
      ValidString (lit "u-1") = true ∧ ValidString ([] : GoString) = true) ∧
    ∃ cred, NewCredentialsOIDC (lit "idt") (lit "acc") (lit "ref") (lit "google") (lit "u-1") []
        = .ok cred ∧
      Unmarshal cred.Config = .ok ⟨some
        [ { Subject := lit "u-1"
            Provider := lit "google"
            InitialIDToken := lit "idt"
            InitialAccessToken := lit "acc"
            InitialRefreshToken := lit "ref"
            CurrentIDToken := lit "idt"
            CurrentAccessToken := lit "acc"
            CurrentRefreshToken := lit "ref"
            Organization := [] } ]⟩ :=
  ⟨by decide, by decide,
    NewCredentialsOIDC_decode (lit "idt") (lit "acc") (lit "ref") (lit "google")
      (lit "u-1") [] (by decide) (by decide) (by decide)⟩

set_option maxRecDepth 100000 in
/-- Counterexample to C3 as stated: with the id token the single byte 0xFF,
which is not valid UTF-8, the call succeeds and the decoded link has the id
tokens U+FFFD (the bytes EF BF BD), not the token given. -/
theorem NewCredentialsOIDC_decode_fails :
    (∃ cred, NewCredentialsOIDC [0xFF] (lit "acc") (lit "ref") (lit "google") (lit "u-1") []
        = .ok cred ∧
      Unmarshal cred.Config = .ok ⟨some
        [ { Subject := lit "u-1"
            Provider := lit "google"
            InitialIDToken := [0xEF, 0xBF, 0xBD]
            InitialAccessToken := lit "acc"
            InitialRefreshToken := lit "ref"
            CurrentIDToken := [0xEF, 0xBF, 0xBD]
            CurrentAccessToken := lit "acc"
            CurrentRefreshToken := lit "ref"
            Organization := [] } ]⟩) ∧
    ¬ ∃ cred, NewCredentialsOIDC [0xFF] (lit "acc") (lit "ref") (lit "google") (lit "u-1") []
        = .ok cred ∧
      Unmarshal cred.Config = .ok ⟨some
        [ { Subject := lit "u-1"
            Provider := lit "google"
            InitialIDToken := [0xFF]
            InitialAccessToken := lit "acc"
            InitialRefreshToken := lit "ref"
            CurrentIDToken := [0xFF]
            CurrentAccessToken := lit "acc"
            CurrentRefreshToken := lit "ref"
            Organization := [] } ]⟩ := by
  have e := NewCredentialsOIDC_ok [0xFF] (lit "acc") (lit "ref") (lit "google") (lit "u-1") []
    (by decide) (by decide)
  refine ⟨⟨_, e, by decide⟩, ?_⟩
  rintro ⟨cred, hc, hu⟩
  rw [e] at hc
  injection hc with hc
  subst hc
  revert hu
  decide

theorem lookup_organization (p : CredentialsOIDCProvider) :
    (lit "organization" ∈ (providerMembers p).map Prod.fst ↔ p.Organization ≠ []) ∧
    (providerMembers p).lookup (lit "organization") =
      if p.Organization = [] then none else some (.string (coerceUTF8 p.Organization)) := by
  by_cases ho : p.Organization = []
  · simp only [providerMembers, ho, if_true, List.append_nil, ne_eq, not_true_eq_false,
      iff_false]
    constructor
    · intro h
      simp only [List.map_cons, List.map_nil, List.mem_cons, List.mem_singleton,
        List.not_mem_nil, or_false] at h
      rcases h with h | h | h | h | h | h | h | h
      all_goals
        revert h
        decide
    · rfl
  · simp only [providerMembers, ho, if_false, ne_eq, not_false_eq_true, iff_true]
    constructor
    · simp
    · rfl

theorem parseDocument_provider (p : CredentialsOIDCProvider) :
    parseDocument p.marshal = some (.object (providerMembers p)) := by
  unfold parseDocument
  have e : maxNestingDepth + 1 = 9999 + 2 := rfl
  have e2 := parseValue_provider 9999 p []
  rw [List.append_nil] at e2
  rw [e, e2]
  rfl

/-- Claim C10, amended: the JSON object of a provider link has the key
"organization" exactly when the link's `Organization` is not empty. The
`Config` of a successful `NewCredentialsOIDC` is an object whose `providers`
array holds one object; that object has no "organization" key when
`organization` is empty, and otherwise maps "organization" to the string
coerced to valid UTF-8, which is `organization` itself when `organization` is
valid UTF-8. -/
theorem organization_key_iff
    (idToken accessToken refreshToken provider subject organization : GoString)
    (hp : provider ≠ []) (hs : subject ≠ []) :
    (∀ p : CredentialsOIDCProvider, ∃ ms,
      parseDocument p.marshal = some (.object ms) ∧
      (lit "organization" ∈ ms.map Prod.fst ↔ p.Organization ≠ [])) ∧
    (∃ cred ms,
      NewCredentialsOIDC idToken accessToken refreshToken provider subject organization
        = .ok cred ∧
      parseDocument cred.Config = some (.object [(lit "providers", .array [.object ms])]) ∧
      (lit "organization" ∈ ms.map Prod.fst ↔ organization ≠ []) ∧
      ms.lookup (lit "organization") =
        (if organization = [] then none else some (.string (coerceUTF8 organization))) ∧
      (ValidString organization = true → coerceUTF8 organization = organization)) := by
  constructor
  · intro p
    exact ⟨_, parseDocument_provider p, (lookup_organization p).1⟩
  · refine ⟨_, providerMembers
        (newLink idToken accessToken refreshToken provider subject organization),
      NewCredentialsOIDC_ok idToken accessToken refreshToken provider subject organization hp hs,
      ?_, ?_, ?_, coerceUTF8_valid organization⟩
    · show parseDocument (CredentialsOIDC.marshal _ ++ [0x0A]) = _
      rw [parseDocument_marshal]
      rfl
    · exact (lookup_organization _).1
    · exact (lookup_organization _).2

set_option maxRecDepth 100000 in
/-- Witness of C10: with the organization "org-x" the link object of the
`Config` maps "organization" to "org-x". -/
theorem organization_key_iff_witness :
    (lit "google" ≠ [] ∧ lit "u-1" ≠ []) ∧
    (∀ p : CredentialsOIDCProvider, ∃ ms,
      parseDocument p.marshal = some (.object ms) ∧
      (lit "organization" ∈ ms.map Prod.fst ↔ p.Organization ≠ [])) ∧
    (∃ cred ms,
      NewCredentialsOIDC (lit "idt") (lit "acc") (lit "ref") (lit "google") (lit "u-1")
        (lit "org-x") = .ok cred ∧
      parseDocument cred.Config = some (.object [(lit "providers", .array [.object ms])]) ∧
      (lit "organization" ∈ ms.map Prod.fst ↔ lit "org-x" ≠ []) ∧
      ms.lookup (lit "organization") =
        (if lit "org-x" = [] then none else some (.string (coerceUTF8 (lit "org-x")))) ∧
      (ValidString (lit "org-x") = true → coerceUTF8 (lit "org-x") = lit "org-x")) :=
  ⟨by decide, organization_key_iff (lit "idt") (lit "acc") (lit "ref") (lit "google")
    (lit "u-1") (lit "org-x") (by decide) (by decide)⟩

set_option maxRecDepth 100000 in
/-- Counterexample to C10 as stated: with the organization the single byte
0xFF, which is not empty and not valid UTF-8, the link object of the `Config`
maps "organization" to U+FFFD (the bytes EF BF BD), not to that string. -/
theorem organization_key_fails :
    (∃ cred ms,
      NewCredentialsOIDC (lit "idt") (lit "acc") (lit "ref") (lit "google") (lit "u-1") [0xFF]
        = .ok cred ∧
      parseDocument cred.Config = some (.object [(lit "providers", .array [.object ms])]) ∧
      ms.lookup (lit "organization") = some (.string [0xEF, 0xBF, 0xBD])) ∧
    ¬ ∃ cred ms,
      NewCredentialsOIDC (lit "idt") (lit "acc") (lit "ref") (lit "google") (lit "u-1") [0xFF]
        = .ok cred ∧
      parseDocument cred.Config = some (.object [(lit "providers", .array [.object ms])]) ∧
      ms.lookup (lit "organization") = some (.string [0xFF]) := by
  have e := NewCredentialsOIDC_ok (lit "idt") (lit "acc") (lit "ref") (lit "google")
    (lit "u-1") [0xFF] (by decide) (by decide)
  have hd0 : parseDocument (CredentialsOIDC.marshal
      ⟨some [newLink (lit "idt") (lit "acc") (lit "ref") (lit "google") (lit "u-1") [0xFF]]⟩
      ++ [0x0A]) = some (.object [(lit "providers", .array [.object (providerMembers
        (newLink (lit "idt") (lit "acc") (lit "ref") (lit "google") (lit "u-1") [0xFF]))])]) :=
    parseDocument_marshal _
  have hl0 := (lookup_organization
    (newLink (lit "idt") (lit "acc") (lit "ref") (lit "google") (lit "u-1") [0xFF])).2
  have hne : (newLink (lit "idt") (lit "acc") (lit "ref") (lit "google") (lit "u-1")
      [0xFF]).Organization = [0xFF] := rfl
  rw [hne, if_neg (by decide)] at hl0
  have hco : coerceUTF8 [0xFF] = [0xEF, 0xBF, 0xBD] := by decide
  rw [hco] at hl0
  refine ⟨⟨_, _, e, hd0, hl0⟩, ?_⟩
  rintro ⟨cred, ms, hc, hd, hl⟩
  rw [e] at hc
  injection hc with hc
  subst hc
  rw [hd0] at hd
  simp only [Option.some.injEq, JValue.object.injEq, List.cons.injEq, Prod.mk.injEq, true_and,
    and_true, JValue.array.injEq] at hd
  subst hd
  rw [hl0] at hl
  simp only [Option.some.injEq, JValue.string.injEq] at hl
  revert hl
  decide

/-! ## Colon-free providers, appended links and the error message -/

theorem append_colon_inj : ∀ (p1 p2 s1 s2 : List Byte), (0x3A : Byte) ∉ p1 → (0x3A : Byte) ∉ p2 →
    p1 ++ 0x3A :: s1 = p2 ++ 0x3A :: s2 → p1 = p2 ∧ s1 = s2 := by
  intro p1
  induction p1 with
  | nil =>
    intro p2 s1 s2 _ h2 h
    rcases p2 with _ | ⟨b, p2⟩
    · exact ⟨rfl, List.tail_eq_of_cons_eq h⟩
    · have hb : (0x3A : Byte) = b := List.head_eq_of_cons_eq h
      exact absurd (hb ▸ List.mem_cons_self _ _) h2
  | cons a p1 ih =>
    intro p2 s1 s2 h1 h2 h
    rcases p2 with _ | ⟨b, p2⟩
    · have ha : a = (0x3A : Byte) := List.head_eq_of_cons_eq h
      exact absurd (ha ▸ List.mem_cons_self _ _) h1
    · have hab : a = b := List.head_eq_of_cons_eq h
      have ht : p1 ++ 0x3A :: s1 = p2 ++ 0x3A :: s2 := List.tail_eq_of_cons_eq h
      obtain ⟨e1, e2⟩ := ih p2 s1 s2 (fun hm => h1 (List.mem_cons_of_mem _ hm))
        (fun hm => h2 (List.mem_cons_of_mem _ hm)) ht
      exact ⟨by rw [hab, e1], e2⟩

/-- Claim C12: when neither provider contains the colon byte, equal canonical
identifiers come from equal providers and equal subjects, whatever the
subjects contain. -/
theorem OIDCUniqueID_injective_colon_free (provider1 subject1 provider2 subject2 : GoString)
    (h1 : (0x3A : Byte) ∉ provider1) (h2 : (0x3A : Byte) ∉ provider2)
    (h : OIDCUniqueID provider1 subject1 = OIDCUniqueID provider2 subject2) :
    provider1 = provider2 ∧ subject1 = subject2 := by
  rw [OIDCUniqueID_eq, OIDCUniqueID_eq] at h
  exact append_colon_inj provider1 provider2 subject1 subject2 h1 h2 h

/-- Witness of C12: the provider "google" with the subject "a:b", which has a
colon, on both sides. -/
theorem OIDCUniqueID_injective_colon_free_witness :
    ((0x3A : Byte) ∉ lit "google" ∧
      OIDCUniqueID (lit "google") (lit "a:b") = OIDCUniqueID (lit "google") (lit "a:b")) ∧
    lit "google" = lit "google" ∧ lit "a:b" = lit "a:b" :=
  ⟨⟨by decide, rfl⟩,
    OIDCUniqueID_injective_colon_free (lit "google") (lit "a:b") (lit "google") (lit "a:b")
      (by decide) (by decide) rfl⟩

theorem getProviderLoop_append_found (provider subject : GoString)
    (l extra : List CredentialsOIDCProvider) (k0 : Nat) (k : Int)
    (h : getProviderLoop provider subject l k0 = (k, true)) :
    getProviderLoop provider subject (l ++ extra) k0 = (k, true) := by
  induction l generalizing k0 with
  | nil => simp [getProviderLoop] at h
  | cons p ps ih =>
    rw [List.cons_append]
    unfold getProviderLoop at h ⊢
    by_cases hm : p.Subject = subject ∧ p.Provider = provider
    · rw [if_pos hm] at h ⊢
      exact h
    · rw [if_neg hm] at h ⊢
      exact ih (k0 + 1) h

theorem getProviderLoop_append_not_found (provider subject : GoString)
    (l extra : List CredentialsOIDCProvider) (k0 : Nat)
    (h : getProviderLoop provider subject l k0 = (-1, false)) :
    getProviderLoop provider subject (l ++ extra) k0 =
      getProviderLoop provider subject extra (k0 + l.length) := by
  induction l generalizing k0 with
  | nil => rfl
  | cons p ps ih =>
    rw [List.cons_append]
    unfold getProviderLoop at h
    conv_lhs => unfold getProviderLoop
    by_cases hm : p.Subject = subject ∧ p.Provider = provider
    · rw [if_pos hm] at h
      cases h
    · rw [if_neg hm] at h ⊢
      rw [ih (k0 + 1) h, List.length_cons]
      congr 1
      omega

theorem getProviderLoop_shift (provider subject : GoString)
    (l : List CredentialsOIDCProvider) (k0 : Nat) :
    getProviderLoop provider subject l k0 =
      if (getProviderLoop provider subject l 0).2 then
        ((k0 : Int) + (getProviderLoop provider subject l 0).1, true)
      else (-1, false) := by
  induction l generalizing k0 with
  | nil => rfl
  | cons p ps ih =>
    unfold getProviderLoop
    by_cases hm : p.Subject = subject ∧ p.Provider = provider
    · rw [if_pos hm, if_pos hm]
      simp
    · rw [if_neg hm, if_neg hm, ih (k0 + 1), ih (0 + 1)]
      by_cases hf : (getProviderLoop provider subject ps 0).2 = true
      · rw [if_pos hf, if_pos hf]
        simp only [if_true]
        congr 1
        push_cast
        omega
      · rw [if_neg hf, if_neg hf]
        simp

/-- Claim C14: appending links keeps a found result, `(k, true)` stays
`(k, true)`; after a result `(-1, false)` the extended set returns
`(len(c.Providers) + j, true)` when the lookup in the appended links alone
returns `(j, true)`, their first matching index, and `(-1, false)` when that
lookup returns `(-1, false)`. -/
theorem GetProvider_append (c : CredentialsOIDC) (extra : List CredentialsOIDCProvider)
    (provider subject : GoString) :
    (∀ k : Int, c.GetProvider provider subject = (k, true) →
      (CredentialsOIDC.mk (some (c.links ++ extra))).GetProvider provider subject = (k, true)) ∧
    (c.GetProvider provider subject = (-1, false) →
      (∀ j : Int, (CredentialsOIDC.mk (some extra)).GetProvider provider subject = (j, true) →
        (CredentialsOIDC.mk (some (c.links ++ extra))).GetProvider provider subject
          = ((c.links.length : Int) + j, true)) ∧
      ((CredentialsOIDC.mk (some extra)).GetProvider provider subject = (-1, false) →
        (CredentialsOIDC.mk (some (c.links ++ extra))).GetProvider provider subject
          = (-1, false))) := by
  constructor
  · intro k h
    exact getProviderLoop_append_found provider subject c.links extra 0 k h
  · intro h
    have e : (CredentialsOIDC.mk (some (c.links ++ extra))).GetProvider provider subject =
        getProviderLoop provider subject extra (0 + c.links.length) :=
      getProviderLoop_append_not_found provider subject c.links extra 0 h
    rw [e, getProviderLoop_shift]
    constructor
    · intro j hj
      have hj2 : getProviderLoop provider subject extra 0 = (j, true) := hj
      rw [hj2]
      simp
    · intro hn
      have hn2 : getProviderLoop provider subject extra 0 = (-1, false) := hn
      rw [hn2]
      simp

theorem organizationLoop_cons (p : CredentialsOIDCProvider)
    (ps : List CredentialsOIDCProvider) :
    organizationLoop (p :: ps) =
      if p.Organization ≠ [] then p.Organization else organizationLoop ps := rfl

theorem organizationLoop_append (x y : List CredentialsOIDCProvider) :
    organizationLoop (x ++ y) =
      if organizationLoop x ≠ [] then organizationLoop x else organizationLoop y := by
  induction x with
  | nil =>
    have e : organizationLoop [] = [] := rfl
    rw [List.nil_append, e, if_neg (fun h => h rfl)]
  | cons p ps ih =>
    rw [List.cons_append, organizationLoop_cons, organizationLoop_cons]
    by_cases hp : p.Organization ≠ []
    · simp only [if_pos hp]
    · simp only [if_neg hp]
      exact ih

/-- Claim C15: `Organization()` of the links `a ++ b` is `Organization()` of
`a` when that is not empty and `Organization()` of `b` otherwise; so
appending a link does not change a non-empty resolved organization. -/
theorem Organization_append (a b : List CredentialsOIDCProvider) :
    (CredentialsOIDC.mk (some (a ++ b))).Organization =
      (if (CredentialsOIDC.mk (some a)).Organization ≠ [] then
        (CredentialsOIDC.mk (some a)).Organization
      else (CredentialsOIDC.mk (some b)).Organization) ∧
    (∀ p : CredentialsOIDCProvider, (CredentialsOIDC.mk (some a)).Organization ≠ [] →
      (CredentialsOIDC.mk (some (a ++ [p]))).Organization
        = (CredentialsOIDC.mk (some a)).Organization) := by
  constructor
  · exact organizationLoop_append a b
  · intro p h
    have h2 : organizationLoop a ≠ [] := h
    have := organizationLoop_append a [p]
    rw [if_pos h2] at this
    exact this

/-- Claim C16: with an empty subject, whatever the provider and in particular
a non-empty one, the error of `NewCredentialsOIDC` has the message "received
empty provider in oidc credentials", and every call with an empty provider
returns the same error: the message does not tell which argument was empty. -/
theorem NewCredentialsOIDC_same_message
    (idToken accessToken refreshToken provider organization : GoString) :
    NewCredentialsOIDC idToken accessToken refreshToken provider [] organization =
      .error (.new "received empty provider in oidc credentials") ∧
    (∀ idToken2 accessToken2 refreshToken2 subject2 organization2 : GoString,
      NewCredentialsOIDC idToken2 accessToken2 refreshToken2 [] subject2 organization2 =
        NewCredentialsOIDC idToken accessToken refreshToken provider [] organization) ∧
    NewCredentialsOIDC (lit "idt") (lit "acc") (lit "ref") (lit "google") [] [] =
      NewCredentialsOIDC (lit "idt") (lit "acc") (lit "ref") [] (lit "u-1") [] := by
  have e := NewCredentialsOIDC_empty idToken accessToken refreshToken provider []
    organization (Or.inr rfl)
  refine ⟨e, ?_, by decide⟩
  intro i2 a2 r2 s2 o2
  rw [e, NewCredentialsOIDC_empty i2 a2 r2 [] s2 o2 (Or.inl rfl)]

/-! ## The shape of the payload and the coherence of builder and lookup -/

theorem providerMembers_keys (p : CredentialsOIDCProvider) :
    (providerMembers p).map Prod.fst =
      [lit "subject", lit "provider", lit "initial_id_token", lit "initial_access_token",
       lit "initial_refresh_token", lit "current_id_token", lit "current_access_token",
       lit "current_refresh_token"]
      ++ (if p.Organization = [] then [] else [lit "organization"]) := by
  unfold providerMembers
  by_cases ho : p.Organization = []
  · rw [if_pos ho, if_pos ho]
    rfl
  · rw [if_neg ho, if_neg ho]
    rfl

theorem providerMembers_strings (p : CredentialsOIDCProvider) :
    ∀ kv ∈ providerMembers p, ∃ s, kv.2 = JValue.string s := by
  intro kv hkv
  unfold providerMembers at hkv
  rw [List.mem_append] at hkv
  rcases hkv with h | h
  · simp only [List.mem_cons, List.mem_singleton, List.not_mem_nil, or_false] at h
    rcases h with rfl | rfl | rfl | rfl | rfl | rfl | rfl | rfl
    all_goals exact ⟨_, rfl⟩
  · by_cases ho : p.Organization = []
    · rw [if_pos ho] at h
      cases h
    · rw [if_neg ho, List.mem_singleton] at h
      subst h
      exact ⟨_, rfl⟩

/-- Claim C11: the `Config` of a successful `NewCredentialsOIDC` is one JSON
object with the single key "providers", whose value is an array of exactly
one object. The keys of that object are "subject", "provider", the three
"initial_" and the three "current_" token keys, in this order and all
present whatever the tokens are, followed by "organization" when the
organization is not empty; every value is a string. -/
theorem Config_shape
    (idToken accessToken refreshToken provider subject organization : GoString)
    (hp : provider ≠ []) (hs : subject ≠ []) :
    ∃ cred ms,
      NewCredentialsOIDC idToken accessToken refreshToken provider subject organization
        = .ok cred ∧
      parseDocument cred.Config = some (.object [(lit "providers", .array [.object ms])]) ∧
      ms.map Prod.fst =
        [lit "subject", lit "provider", lit "initial_id_token", lit "initial_access_token",
         lit "initial_refresh_token", lit "current_id_token", lit "current_access_token",
         lit "current_refresh_token"]
        ++ (if organization = [] then [] else [lit "organization"]) ∧
      (∀ kv ∈ ms, ∃ s, kv.2 = JValue.string s) := by
  refine ⟨_, providerMembers
      (newLink idToken accessToken refreshToken provider subject organization),
    NewCredentialsOIDC_ok idToken accessToken refreshToken provider subject organization hp hs,
    ?_, providerMembers_keys _, providerMembers_strings _⟩
  show parseDocument (CredentialsOIDC.marshal _ ++ [0x0A]) = _
  rw [parseDocument_marshal]
  rfl

/-- Witness of C11: all three tokens empty and no organization; the eight
keys are present all the same. -/
theorem Config_shape_witness :
    (lit "google" ≠ [] ∧ lit "u-1" ≠ []) ∧
    ∃ cred ms,
      NewCredentialsOIDC [] [] [] (lit "google") (lit "u-1") [] = .ok cred ∧
      parseDocument cred.Config = some (.object [(lit "providers", .array [.object ms])]) ∧
      ms.map Prod.fst =
        [lit "subject", lit "provider", lit "initial_id_token", lit "initial_access_token",
         lit "initial_refresh_token", lit "current_id_token", lit "current_access_token",
         lit "current_refresh_token"]
        ++ (if ([] : GoString) = [] then [] else [lit "organization"]) ∧
      (∀ kv ∈ ms, ∃ s, kv.2 = JValue.string s) :=
  ⟨by decide, Config_shape [] [] [] (lit "google") (lit "u-1") [] (by decide) (by decide)⟩

theorem getProviderLoop_single (provider subject : GoString) (q : CredentialsOIDCProvider) :
    getProviderLoop provider subject [q] 0 =
      if q.Subject = subject ∧ q.Provider = provider then (0, true) else (-1, false) := rfl

/-- Claim C13, amended: for every successful call of `NewCredentialsOIDC`
whose provider, subject and organization are valid UTF-8, the set decoded
from the returned `Config` finds `(provider, subject)` at index 0, resolves
the organization to `organization`, and finds no other pair. -/
theorem NewCredentialsOIDC_lookup_coherence
    (idToken accessToken refreshToken provider subject organization : GoString)
    (hp : provider ≠ []) (hs : subject ≠ [])
    (hv : ValidString provider = true ∧ ValidString subject = true ∧
      ValidString organization = true) :
    ∃ cred c,
      NewCredentialsOIDC idToken accessToken refreshToken provider subject organization
        = .ok cred ∧
      Unmarshal cred.Config = .ok c ∧
      c.GetProvider provider subject = (0, true) ∧
      c.Organization = organization ∧
      ∀ p s : GoString, (p, s) ≠ (provider, subject) → c.GetProvider p s = (-1, false) := by
  obtain ⟨h1, h2, h3⟩ := hv
  refine ⟨_, (CredentialsOIDC.mk (some
      [newLink idToken accessToken refreshToken provider subject organization])).coerced,
    NewCredentialsOIDC_ok idToken accessToken refreshToken provider subject organization hp hs,
    Unmarshal_marshal _, ?_, ?_, ?_⟩
  · show getProviderLoop provider subject [_] 0 = _
    rw [getProviderLoop_single]
    have e1 : (newLink idToken accessToken refreshToken provider subject
        organization).coerced.Subject = subject := coerceUTF8_valid subject h2
    have e2 : (newLink idToken accessToken refreshToken provider subject
        organization).coerced.Provider = provider := coerceUTF8_valid provider h1
    rw [if_pos ⟨e1, e2⟩]
  · show organizationLoop [_] = _
    have e3 : (newLink idToken accessToken refreshToken provider subject
        organization).coerced.Organization = organization :=
      coerceUTF8_valid organization h3
    rw [organizationLoop_cons, e3]
    by_cases ho : organization ≠ []
    · rw [if_pos ho]
    · rw [if_neg ho]
      have : organization = [] := not_not.1 ho
      rw [this]
      rfl
  · intro p s hne
    show getProviderLoop p s [_] 0 = _
    rw [getProviderLoop_single]
    have e1 : (newLink idToken accessToken refreshToken provider subject
        organization).coerced.Subject = subject := coerceUTF8_valid subject h2
    have e2 : (newLink idToken accessToken refreshToken provider subject
        organization).coerced.Provider = provider := coerceUTF8_valid provider h1
    rw [e1, e2, if_neg]
    rintro ⟨rfl, rfl⟩
    exact hne rfl

set_option maxRecDepth 100000 in
/-- Witness of C13: provider "google", subject "u-1", organization "org-x",
and an id token that is not valid UTF-8. -/
theorem NewCredentialsOIDC_lookup_coherence_witness :
    (lit "google" ≠ [] ∧ lit "u-1" ≠ []) ∧
    (ValidString (lit "google") = true ∧ ValidString (lit "u-1") = true ∧
      ValidString (lit "org-x") = true) ∧
    ∃ cred c,
      NewCredentialsOIDC [0xFF] (lit "acc") (lit "ref") (lit "google") (lit "u-1") (lit "org-x")
        = .ok cred ∧
      Unmarshal cred.Config = .ok c ∧
      c.GetProvider (lit "google") (lit "u-1") = (0, true) ∧
      c.Organization = lit "org-x" ∧
      ∀ p s : GoString, (p, s) ≠ (lit "google", lit "u-1") →
        c.GetProvider p s = (-1, false) :=
  ⟨by decide, by decide,
    NewCredentialsOIDC_lookup_coherence [0xFF] (lit "acc") (lit "ref") (lit "google")
      (lit "u-1") (lit "org-x") (by decide) (by decide) (by decide)⟩

set_option maxRecDepth 100000 in
/-- Counterexample to C13 as stated: with the provider the single byte 0xFF,
which is not valid UTF-8, the call succeeds and the decoded set has the
provider U+FFFD (the bytes EF BF BD): the lookup of the pair given returns
`(-1, false)`, and the lookup of another pair returns `(0, true)`. -/
theorem NewCredentialsOIDC_lookup_coherence_fails :
    (∃ cred c,
      NewCredentialsOIDC (lit "idt") (lit "acc") (lit "ref") [0xFF] (lit "u-1") []
        = .ok cred ∧
      Unmarshal cred.Config = .ok c ∧
      c.GetProvider [0xFF] (lit "u-1") = (-1, false) ∧
      c.GetProvider [0xEF, 0xBF, 0xBD] (lit "u-1") = (0, true)) ∧
    ¬ ∃ cred c,
      NewCredentialsOIDC (lit "idt") (lit "acc") (lit "ref") [0xFF] (lit "u-1") []
        = .ok cred ∧
      Unmarshal cred.Config = .ok c ∧
      c.GetProvider [0xFF] (lit "u-1") = (0, true) := by
  have e := NewCredentialsOIDC_ok (lit "idt") (lit "acc") (lit "ref") [0xFF] (lit "u-1") []
    (by decide) (by decide)
  have hu : Unmarshal (CredentialsOIDC.marshal
      ⟨some [newLink (lit "idt") (lit "acc") (lit "ref") [0xFF] (lit "u-1") []]⟩ ++ [0x0A]) =
      .ok ⟨some [⟨lit "u-1", [0xEF, 0xBF, 0xBD], lit "idt", lit "acc", lit "ref", lit "idt",
        lit "acc", lit "ref", []⟩]⟩ := by decide
  refine ⟨⟨_, _, e, hu, by decide, by decide⟩, ?_⟩
  rintro ⟨cred, c, hc, hd, hg⟩
  rw [e] at hc
  injection hc with hc
  subst hc
  have hd2 : Unmarshal (CredentialsOIDC.marshal
      ⟨some [newLink (lit "idt") (lit "acc") (lit "ref") [0xFF] (lit "u-1") []]⟩ ++ [0x0A]) =
      .ok c := hd
  rw [hu] at hd2
  injection hd2 with hd2
  subst hd2
  revert hg
  decide

/-- Witness of C14: one link, then two links appended of which the second
matches: the lookup goes from `(-1, false)` to `(2, true)`. -/
theorem GetProvider_append_witness :
    (CredentialsOIDC.mk (some [⟨lit "u-0", lit "github", [], [], [], [], [], [], []⟩])).GetProvider
        (lit "google") (lit "u-1") = (-1, false) ∧
    (CredentialsOIDC.mk (some
        [⟨lit "u-9", lit "google", [], [], [], [], [], [], []⟩,
         ⟨lit "u-1", lit "google", [], [], [], [], [], [], []⟩])).GetProvider
        (lit "google") (lit "u-1") = (1, true) ∧
    (CredentialsOIDC.mk (some
      ((CredentialsOIDC.mk (some
          [⟨lit "u-0", lit "github", [], [], [], [], [], [], []⟩])).links ++
        [⟨lit "u-9", lit "google", [], [], [], [], [], [], []⟩,
         ⟨lit "u-1", lit "google", [], [], [], [], [], [], []⟩]))).GetProvider
        (lit "google") (lit "u-1")
      = (((CredentialsOIDC.mk (some
          [⟨lit "u-0", lit "github", [], [], [], [], [], [], []⟩])).links.length : Int) + 1,
        true) :=
  ⟨by decide, by decide,
    ((GetProvider_append _ _ (lit "google") (lit "u-1")).2 (by decide)).1 1 (by decide)⟩

end Kratos
